/-
  Verification of the Aho-Corasick machine implementation
  (aho-corasick-1975, template implementation variant with value-typed
  cursors: `ACM_DEFINE` in the preprocessed template implementation file).

  The C heap is modelled as a store `Nat → ACState σ V` together with the
  list `ids` of allocated state identifiers; the root state `state_0` is
  modelled with identifier `0`.  Machine integers (`size_t` counters) are
  modelled as `Nat`; the counters involved never underflow on the paths
  exercised here.  The unbounded C loops (`state_goto`'s fail-chain walk,
  the breadth-first reconstruction loop, the walks of `ACM_get_match`) are
  modelled with an explicit fuel argument; exhausting the fuel returns
  `none`, which corresponds to the C loop not having terminated within
  that many iterations.  Calls of the user-supplied symbol destructor and
  of the per-keyword value destructor are modelled by logs (lists of the
  destroyed symbols/values) returned next to the C function results.
-/
import Mathlib

set_option autoImplicit false

namespace AhoCorasick

/-- Model of `struct _ac_state_` : one state of the machine.
`goto_array` is the ordered edge list `(letter, child id)`;
`previous_state`/`previous_i` model the `previous` back-link
(`none` for the root); `fail_state` models the `fail_state` pointer
(`none` for `NULL`); `value_dtor` records whether a value destructor
was attached. -/
structure ACState (σ V : Type) where
  goto_array : List (σ × Nat)
  previous_state : Option Nat
  previous_i : Nat
  fail_state : Option Nat
  is_matching : Bool
  nb_sequence : Nat
  rank : Nat
  value : Option V
  value_dtor : Bool
deriving DecidableEq

variable {σ V : Type}

/-- Model of `state_create`: a fresh state with all fields zeroed. -/
def state_create : ACState σ V :=
  { goto_array := []
    previous_state := none
    previous_i := 0
    fail_state := none
    is_matching := false
    nb_sequence := 0
    rank := 0
    value := none
    value_dtor := false }

/-- Model of `struct _ac_machine_`.  `states` is the heap, `ids` the list
of allocated state identifiers (the root is id `0`), `next_id` the
allocator counter.  `rank` is the machine rank counter (`machine->rank`),
`nb_sequence` the number of registered keywords, `reconstruct` the
tri-state flag (0 = clean, 1 = structural, 2 = output-also),
`size` the number of states, `eq` the symbol equality operator. -/
structure ACMachine (σ V : Type) where
  states : Nat → ACState σ V
  ids : List Nat
  next_id : Nat
  rank : Nat
  nb_sequence : Nat
  reconstruct : Nat
  size : Nat
  eq : σ → σ → Bool

/-- Store update: write state `s` at identifier `i`. -/
def updState (st : Nat → ACState σ V) (i : Nat) (s : ACState σ V) :
    Nat → ACState σ V :=
  fun j => if j = i then s else st j

@[simp] theorem updState_same (st : Nat → ACState σ V) (i : Nat) (s : ACState σ V) :
    updState st i s i = s := by
  simp [updState]

theorem updState_other (st : Nat → ACState σ V) (i : Nat) (s : ACState σ V)
    (j : Nat) (h : j ≠ i) : updState st i s j = st j := by
  simp [updState, h]

/-- Model of `ACM_create` composed with `machine_init`: a machine whose
only state is the root, with `reconstruct = 1`. -/
def ACM_create (eqf : σ → σ → Bool) : ACMachine σ V :=
  { states := fun _ => state_create
    ids := [0]
    next_id := 1
    rank := 0
    nb_sequence := 0
    reconstruct := 1
    size := 1
    eq := eqf }

/-- Model of the edge-scanning loop `for (; p < end; p++) if (eq (p->letter,
letter)) ...`: first edge of the list whose letter `eq`-matches `c`. -/
def findEdge (eqf : σ → σ → Bool) (c : σ) : List (σ × Nat) → Option Nat
  | [] => none
  | e :: rest => if eqf e.1 c then some e.2 else findEdge eqf c rest

/-- Model of `state_goto`: follow the first matching edge, else stop at a
state with no fail link (the root), else retry from the fail state.
The fuel bounds the number of fail-chain steps; `none` models
non-termination of the C `while (1)` loop within that budget. -/
def state_goto (eqf : σ → σ → Bool) (st : Nat → ACState σ V) :
    Nat → Nat → σ → Option Nat
  | 0, _, _ => none
  | fuel + 1, sid, c =>
    match findEdge eqf c (st sid).goto_array with
    | some t => some t
    | none =>
      match (st sid).fail_state with
      | none => some sid
      | some f => state_goto eqf st fuel f c

/-- The fail chain starting at `s` (inclusive), until a state with no fail
link; `none` when the fuel is exhausted before the chain ends. -/
def fail_chain (st : Nat → ACState σ V) : Nat → Nat → Option (List Nat)
  | 0, _ => none
  | fuel + 1, s =>
    match (st s).fail_state with
    | none => some [s]
    | some f => (fail_chain st fuel f).map (fun l => s :: l)

/-- Model of the inner loop of `ACM_get_match`:
`while (!state->is_matching && state->fail_state) state = state->fail_state;`. -/
def skip_nonmatching (st : Nat → ACState σ V) : Nat → Nat → Option Nat
  | 0, _ => none
  | fuel + 1, s =>
    if (st s).is_matching then some s
    else
      match (st s).fail_state with
      | none => some s
      | some f => skip_nonmatching st fuel f

/-- Model of the outer loop of `ACM_get_match`
(`for (; state; state = state->fail_state, i++) { ...skip...; if (i == index) break; }`).
Returns `some none` when the loop exits with `state == NULL`. -/
def walk_to_index (st : Nat → ACState σ V) (skipFuel : Nat) :
    Nat → Option Nat → Nat → Nat → Option (Option Nat)
  | 0, _, _, _ => none
  | fuel + 1, stOpt, i, index =>
    match stOpt with
    | none => some none
    | some s =>
      match skip_nonmatching st skipFuel s with
      | none => none
      | some s2 =>
        if i = index then some (some s2)
        else walk_to_index st skipFuel fuel ((st s2).fail_state) (i + 1) index

/-- Model of the keyword-reconstruction passes of `ACM_get_match`: the
letters on the parent back-link chain from the root down to `s`
(the C code collects them walking up and fills the buffer backwards). -/
def parent_letters (st : Nat → ACState σ V) : Nat → Nat → List σ
  | 0, _ => []
  | fuel + 1, s =>
    match (st s).previous_state with
    | none => []
    | some p =>
      parent_letters st fuel p ++
        (match (st p).goto_array[(st s).previous_i]? with
         | some e => [e.1]
         | none => [])

/-- Model of `ACM_get_match`.  The result is the reconstructed keyword,
the rank and the associated value of the selected state.  `none` models
the fatal `ACM_ASSERT (index < state->nb_sequence)` abort, as well as the
`NULL`-state dereference and fuel exhaustion (both unreachable after a
rebuild, as proved below). -/
def ACM_get_match (m : ACMachine σ V) (cursor : Nat) (index : Nat) :
    Option (List σ × Nat × Option V) :=
  if index < (m.states cursor).nb_sequence then
    match walk_to_index m.states m.size m.size (some cursor) 0 index with
    | some (some s) =>
      some (parent_letters m.states m.size s,
            (m.states s).rank, (m.states s).value)
    | some none => none
    | none => none
  else none

/-- Model of `state_reset_output`: reset `nb_sequence` of `r` to
`is_matching ? 1 : 0` and recurse over the children.  The fuel bounds the
recursion depth (the C recursion descends one trie level per call). -/
def state_reset_output : Nat → (Nat → ACState σ V) → Nat → (Nat → ACState σ V)
  | 0, st, _ => st
  | fuel + 1, st, r =>
    let st1 := updState st r
      { st r with nb_sequence := if (st r).is_matching then 1 else 0 }
    ((st r).goto_array.map Prod.snd).foldl
      (fun acc c => state_reset_output fuel acc c) st1

/-- Model of the seeding loop of `state_fail_state_construct`: every child
of the root gets `fail_state ← root`. -/
def seed_children (st : Nat → ACState σ V) : List Nat → (Nat → ACState σ V)
  | [] => st
  | c :: rest =>
    seed_children (updState st c { st c with fail_state := some 0 }) rest

/-- Model of the inner edge loop of the breadth-first reconstruction:
for each edge `(a, s)` of the dequeued state `r`, append `s` to the queue,
set `fail(s) ← state_goto (fail r, a)` and add `fail(s)`'s output count to
`s`'s.  The `none` branches model the `NULL`-pointer dereferences the C
would perform on a malformed machine (unreachable under the invariants). -/
def process_edges (eqf : σ → σ → Bool) (gfuel : Nat) :
    (Nat → ACState σ V) → Nat → List Nat → List (σ × Nat) →
    ((Nat → ACState σ V) × List Nat)
  | st, _, q, [] => (st, q)
  | st, r, q, e :: rest =>
    let s := e.2
    let q1 := q ++ [s]
    let fsid : Option Nat :=
      match (st r).fail_state with
      | none => none
      | some f => state_goto eqf st gfuel f e.1
    let add : Nat :=
      match fsid with
      | some f2 => (st f2).nb_sequence
      | none => 0
    let st1 := updState st s
      { st s with fail_state := fsid,
                  nb_sequence := (st s).nb_sequence + add }
    process_edges eqf gfuel st1 r q1 rest

/-- Model of the queue loop `while (queue_read_pos < queue_length)` of
`state_fail_state_construct`.  The queue is a list that only grows; `i`
is the read position; the fuel bounds the number of dequeue steps. -/
def construct_loop (eqf : σ → σ → Bool) (gfuel : Nat) :
    Nat → (Nat → ACState σ V) → List Nat → Nat →
    ((Nat → ACState σ V) × List Nat)
  | 0, st, q, _ => (st, q)
  | fuel + 1, st, q, i =>
    match q[i]? with
    | none => (st, q)
    | some r =>
      let p := process_edges eqf gfuel st r q (st r).goto_array
      construct_loop eqf gfuel fuel p.1 p.2 (i + 1)

/-- Model of `state_fail_state_construct`: optional output reset (flag 2),
root fail cleared, root children seeded and queued, breadth-first loop,
then `reconstruct ← 0`. -/
def state_fail_state_construct (m : ACMachine σ V) : ACMachine σ V :=
  let st0 := if m.reconstruct = 2 then state_reset_output m.size m.states 0
             else m.states
  let st1 := updState st0 0 { st0 0 with fail_state := none }
  let seedIds := (st1 0).goto_array.map Prod.snd
  let st2 := seed_children st1 seedIds
  let p := construct_loop m.eq m.size m.size st2 seedIds 0
  { m with states := p.1, reconstruct := 0 }

/-- Model of `ACM_reset`: a fresh cursor is the root state. -/
def ACM_reset (_m : ACMachine σ V) : Nat := 0

/-- Model of `ACM_match` (the feed operation): lazily rebuild when
`reconstruct != 0`, then advance the cursor by `state_goto` and return the
new state's `nb_sequence`.  `none` models fuel exhaustion of the
`state_goto` walk (unreachable after a rebuild). -/
def ACM_match (m : ACMachine σ V) (cursor : Nat) (c : σ) :
    Option (ACMachine σ V × Nat × Nat) :=
  let m1 := if m.reconstruct ≠ 0 then state_fail_state_construct m else m
  match state_goto m1.eq m1.states m1.size cursor c with
  | some s => some (m1, s, (m1.states s).nb_sequence)
  | none => none

/-- Feeding a non-empty word symbol by symbol; returns the machine, the
final cursor and the value returned by the last `ACM_match` call. -/
def feed_word (m : ACMachine σ V) (cursor : Nat) :
    List σ → Option (ACMachine σ V × Nat × Nat)
  | [] => none
  | [c] => ACM_match m cursor c
  | c :: c2 :: rest =>
    match ACM_match m cursor c with
    | some (m1, cur1, _) => feed_word m1 cur1 (c2 :: rest)
    | none => none

/-- Model of the first loop of `machine_goto_update`: consume the longest
already-present path for the keyword; returns the last state reached and
the remaining suffix. -/
def walk_longest (eqf : σ → σ → Bool) (st : Nat → ACState σ V) :
    Nat → List σ → Nat × List σ
  | sid, [] => (sid, [])
  | sid, c :: rest =>
    match findEdge eqf c (st sid).goto_array with
    | some t => walk_longest eqf st t rest
    | none => (sid, c :: rest)

/-- Model of the second loop of `machine_goto_update`: append one fresh
state per remaining symbol (the symbol copy operator is modelled as the
identity).  Returns the machine and the final state id. -/
def append_states (m : ACMachine σ V) : Nat → List σ → ACMachine σ V × Nat
  | sid, [] => (m, sid)
  | sid, c :: rest =>
    let newid := m.next_id
    let parent := m.states sid
    let st1 := updState m.states sid
      { parent with goto_array := parent.goto_array ++ [(c, newid)] }
    let st2 := updState st1 newid
      { (state_create : ACState σ V) with
          previous_state := some sid
          previous_i := parent.goto_array.length }
    let m1 : ACMachine σ V :=
      { m with states := st2, ids := m.ids ++ [newid],
               next_id := newid + 1, size := m.size + 1 }
    append_states m1 newid rest

/-- One iteration of the appending loop of `machine_goto_update`, as a
named machine transformer (unfolding of the `let`s of `append_states`). -/
def append_step (m : ACMachine σ V) (sid : Nat) (c : σ) : ACMachine σ V :=
  { m with
      states := updState (updState m.states sid
          { m.states sid with goto_array :=
              (m.states sid).goto_array ++ [(c, m.next_id)] })
        m.next_id
        { (state_create : ACState σ V) with
            previous_state := some sid,
            previous_i := (m.states sid).goto_array.length },
      ids := m.ids ++ [m.next_id],
      next_id := m.next_id + 1,
      size := m.size + 1 }

/-- Model of `machine_goto_update` (the registration work-horse).
Returns the C result (`1`/`0` as a `Bool`), the machine, and the log of
values passed to a value destructor during the call. -/
def machine_goto_update (m : ACMachine σ V) (seq : List σ)
    (value : Option V) (dtor : Bool) : Bool × ACMachine σ V × List V :=
  if seq.length = 0 then (false, m, [])
  else
    let w := walk_longest m.eq m.states 0 seq
    let a := append_states m w.1 w.2
    let m1 := a.1
    let last := a.2
    let lastSt := m1.states last
    if lastSt.is_matching then (false, m1, [])
    else
      let dlog : List V :=
        match lastSt.value, lastSt.value_dtor with
        | some v0, true => [v0]
        | _, _ => []
      let st2 := updState m1.states last
        { lastSt with value := value, value_dtor := dtor,
                      is_matching := true, nb_sequence := 1,
                      rank := m1.rank }
      let m2 : ACMachine σ V :=
        { m1 with states := st2, rank := m1.rank + 1,
                  nb_sequence := m1.nb_sequence + 1,
                  reconstruct := if m1.reconstruct = 0 then 2
                                 else m1.reconstruct }
      (true, m2, dlog)

/-- Model of `ACM_register_keyword`: a direct forward to
`machine_goto_update`. -/
def ACM_register_keyword (m : ACMachine σ V) (y : List σ)
    (value : Option V) (dtor : Bool) : Bool × ACMachine σ V × List V :=
  machine_goto_update m y value dtor

/-- Model of the walk of `get_last_state`: follow edges for every symbol;
`none` as soon as an edge is missing. -/
def walk_full (eqf : σ → σ → Bool) (st : Nat → ACState σ V) :
    Nat → List σ → Option Nat
  | sid, [] => some sid
  | sid, c :: rest =>
    match findEdge eqf c (st sid).goto_array with
    | some t => walk_full eqf st t rest
    | none => none

/-- Model of `get_last_state`: the endpoint of the keyword when present
and currently terminal. -/
def get_last_state (m : ACMachine σ V) (seq : List σ) : Option Nat :=
  if seq.length = 0 then none
  else
    match walk_full m.eq m.states 0 seq with
    | some e => if (m.states e).is_matching then some e else none
    | none => none

/-- Model of `ACM_is_registered_keyword` (result and value out). -/
def ACM_is_registered_keyword (m : ACMachine σ V) (seq : List σ) :
    Bool × Option V :=
  match get_last_state m seq with
  | some e => (true, (m.states e).value)
  | none => (false, none)

/-- Model of the edge-removal step of the pruning loop of
`ACM_unregister_keyword`.  The C code decrements `nb_goto` and then, for
`k` from the removed index `i` up to the new count minus one, destroys
`goto_array[k].letter`, copies slot `k+1` into slot `k` and re-indexes the
moved child; the final `realloc` drops the last slot.  Net effect on the
store: the edge at index `i` is erased, the children that moved down get
their `previous_i` decremented, and the destroyed letters are exactly the
letters at the old indices `i .. length - 2` (the removed edge's letter
only when the removed edge was not last; the letter of each moved
surviving edge except the last one is destroyed as well, faithfully to
the C loop). -/
def remove_edge (st : Nat → ACState σ V) (p : Nat) (i : Nat) :
    (Nat → ACState σ V) × List σ :=
  let arr := (st p).goto_array
  let destroyed := ((arr.take (arr.length - 1)).drop i).map Prod.fst
  let st1 := updState st p
    { st p with goto_array := arr.take i ++ arr.drop (i + 1) }
  (reindex_children st1 (arr.drop (i + 1)) i, destroyed)
where
  /-- Re-index the `previous_i` back-links of the moved sibling edges. -/
  reindex_children (st : Nat → ACState σ V) :
      List (σ × Nat) → Nat → (Nat → ACState σ V)
  | [], _ => st
  | e :: rest, k =>
    reindex_children (updState st e.2 { st e.2 with previous_i := k }) rest (k + 1)

/-- Model of the `do { ... } while (...)` pruning loop of
`ACM_unregister_keyword`.  Returns the machine and the logs of destroyed
edge symbols and destroyed values.  The fuel bounds the number of pruned
states; the `previous_state = none` branch models the `NULL` dereference
the C would perform if the loop reached the root (unreachable: the loop
guard stops at `state_0`). -/
def prune_loop : Nat → ACMachine σ V → Nat → List σ → List V →
    ACMachine σ V × List σ × List V
  | 0, m, _, slog, vlog => (m, slog, vlog)
  | fuel + 1, m, last, slog, vlog =>
    match (m.states last).previous_state with
    | none => (m, slog, vlog)
    | some prev =>
      let r := remove_edge m.states prev (m.states last).previous_i
      let vlog1 :=
        match (r.1 last).value, (r.1 last).value_dtor with
        | some v0, true => vlog ++ [v0]
        | _, _ => vlog
      let m1 : ACMachine σ V :=
        { m with states := r.1, ids := m.ids.erase last, size := m.size - 1 }
      if prev ≠ 0 ∧ (m1.states prev).is_matching = false ∧
          (m1.states prev).goto_array.length = 0 then
        prune_loop fuel m1 prev (slog ++ r.2) vlog1
      else (m1, slog ++ r.2, vlog1)

/-- Model of `ACM_unregister_keyword`.  Returns the C result, the machine
and the logs of destroyed edge symbols and values. -/
def ACM_unregister_keyword (m : ACMachine σ V) (y : List σ) :
    Bool × ACMachine σ V × List σ × List V :=
  match get_last_state m y with
  | none => (false, m, [], [])
  | some last =>
    let m1 : ACMachine σ V := { m with nb_sequence := m.nb_sequence - 1 }
    if (m1.states last).goto_array.length ≠ 0 then
      -- soft case: the endpoint keeps its children; the C returns 1 here
      -- without touching machine->reconstruct.
      let cleared : ACState σ V :=
        { m1.states last with is_matching := false, nb_sequence := 0,
                              rank := 0 }
      (true, { m1 with states := updState m1.states last cleared }, [], [])
    else
      let p := prune_loop m1.size m1 last [] []
      let m2 := p.1
      (true,
       { m2 with reconstruct := if m2.reconstruct = 0 then 2
                                else m2.reconstruct },
       p.2.1, p.2.2)

/-- The trie path from `sid` that is labelled, letter for letter, by the
symbols of `k` (literal equality, the letters as stored on the edges);
`some e` when the whole of `k` is present.  This is the formal reading of
"`k` is a keyword of the trie" used in the round-trip claim. -/
def literal_path [DecidableEq σ] (m : ACMachine σ V) :
    Nat → List σ → Option Nat
  | sid, [] => some sid
  | sid, c :: rest =>
    match findEdge (fun a b => decide (a = b)) c (m.states sid).goto_array with
    | some t => literal_path m t rest
    | none => none

/-- The state id that a successful `machine_goto_update` call turns into
the keyword's endpoint (the state whose `rank` field receives the fresh
rank). -/
def register_endpoint (m : ACMachine σ V) (seq : List σ) : Nat :=
  (append_states m (walk_longest m.eq m.states 0 seq).1
    (walk_longest m.eq m.states 0 seq).2).2

/-- A mutating operation on a machine, for the rank-evolution claims. -/
inductive MOp (σ V : Type) where
  | reg (k : List σ) (v : Option V) (dt : Bool)
  | unreg (k : List σ)
  | rebuild

/-- Apply one operation (registration, unregistration or failure-layer
rebuild) to a machine. -/
def applyOp (m : ACMachine σ V) : MOp σ V → ACMachine σ V
  | MOp.reg k v dt => (machine_goto_update m k v dt).2.1
  | MOp.unreg k => (ACM_unregister_keyword m k).2.1
  | MOp.rebuild => state_fail_state_construct m

/-- Apply a sequence of operations. -/
def runOps (m : ACMachine σ V) : List (MOp σ V) → ACMachine σ V
  | [] => m
  | op :: rest => runOps (applyOp m op) rest

/-- Output base of a state: `is_matching ? 1 : 0` (the contribution of the
state itself to its output count). -/
def stateBase (s : ACState σ V) : Nat := if s.is_matching then 1 else 0

/-- Edge letters of a list are pairwise distinct under `eqf` (in both
argument orders). -/
def edgesPairwiseNe (eqf : σ → σ → Bool) : List (σ × Nat) → Bool
  | [] => true
  | e :: rest =>
    rest.all (fun e2 => !eqf e.1 e2.1 && !eqf e2.1 e.1) &&
      edgesPairwiseNe eqf rest

/-- Decidable well-formedness of the trie structure of a machine, with
respect to a depth function `d`: the root is allocated, non-matching and
parentless; ids are distinct and below the allocator counter; `size`
counts them; depths are below `size`; every edge target is an allocated
non-root state whose back-link points at that very edge and whose depth
is one more than the source's; every non-root state has the back-link of
an actual edge. -/
def treeOk (m : ACMachine σ V) (d : Nat → Nat) : Bool :=
  decide (0 ∈ m.ids) &&
  decide m.ids.Nodup &&
  decide ((m.states 0).previous_state = none) &&
  ((m.states 0).is_matching == false) &&
  (d 0 == 0) &&
  (m.size == m.ids.length) &&
  m.ids.all (fun s => decide (d s < m.size) && decide (s < m.next_id)) &&
  m.ids.all (fun p =>
    (List.range (m.states p).goto_array.length).all (fun i =>
      match (m.states p).goto_array[i]? with
      | some e =>
        decide (e.2 ∈ m.ids) && decide (e.2 ≠ 0) &&
        decide ((m.states e.2).previous_state = some p) &&
        ((m.states e.2).previous_i == i) &&
        (d e.2 == d p + 1)
      | none => true)) &&
  m.ids.all (fun s =>
    (s == 0) ||
    (match (m.states s).previous_state with
     | some p =>
       decide (p ∈ m.ids) &&
       (match (m.states p).goto_array[(m.states s).previous_i]? with
        | some e => e.2 == s
        | none => false)
     | none => false))

/-- Decidable well-formedness of the failure layer: the root has no fail
link, and every other state's fail link points at an allocated state of
strictly smaller depth. -/
def failOk (m : ACMachine σ V) (d : Nat → Nat) : Bool :=
  decide ((m.states 0).fail_state = none) &&
  m.ids.all (fun s =>
    (s == 0) ||
    (match (m.states s).fail_state with
     | some f => decide (f ∈ m.ids) && decide (d f < d s)
     | none => false))

/-- Decidable fail-chain output identity: every state's `nb_sequence`
equals its own base plus its fail state's `nb_sequence`. -/
def outputOk (m : ACMachine σ V) : Bool :=
  m.ids.all (fun s =>
    (m.states s).nb_sequence ==
      stateBase (m.states s) +
        (match (m.states s).fail_state with
         | some f => (m.states f).nb_sequence
         | none => 0))

/-- Decidable well-behavedness of the symbol equality operator on the
machine's stored letters: reflexive on every stored letter, and the
letters of the edges of one state are pairwise non-equal. -/
def eqOk (m : ACMachine σ V) : Bool :=
  m.ids.all (fun s =>
    edgesPairwiseNe m.eq (m.states s).goto_array &&
      (m.states s).goto_array.all (fun e => m.eq e.1 e.1))

/-- Decidable freshness of the output counts: every state's count is its
base (`is_matching ? 1 : 0`), as right after construction or reset. -/
def countsFresh (m : ACMachine σ V) : Bool :=
  m.ids.all (fun s => (m.states s).nb_sequence == stateBase (m.states s))

/-- Fail-chain reachability in a store (reflexive-transitive closure of
the fail link). -/
inductive FailReach (st : Nat → ACState σ V) : Nat → Nat → Prop
  | refl (s : Nat) : FailReach st s s
  | step {s f t : Nat} : (st s).fail_state = some f → FailReach st f t →
      FailReach st s t

/-- A region `X` of the store is fail-closed with decreasing depth `d`. -/
def FailBelow (st : Nat → ACState σ V) (d : Nat → Nat) (X : Nat → Prop) :
    Prop :=
  ∀ x, X x → ∀ f, (st x).fail_state = some f → X f ∧ d f < d x

section CheckerLemmas

theorem treeOk_root_mem {m : ACMachine σ V} {d : Nat → Nat}
    (h : treeOk m d = true) : 0 ∈ m.ids := by
  simp only [treeOk, Bool.and_eq_true, decide_eq_true_eq] at h
  exact h.1.1.1.1.1.1.1.1

theorem treeOk_nodup {m : ACMachine σ V} {d : Nat → Nat}
    (h : treeOk m d = true) : m.ids.Nodup := by
  simp only [treeOk, Bool.and_eq_true, decide_eq_true_eq] at h
  exact h.1.1.1.1.1.1.1.2

theorem treeOk_root_prev {m : ACMachine σ V} {d : Nat → Nat}
    (h : treeOk m d = true) : (m.states 0).previous_state = none := by
  simp only [treeOk, Bool.and_eq_true, decide_eq_true_eq] at h
  exact h.1.1.1.1.1.1.2

theorem treeOk_root_nonmatching {m : ACMachine σ V} {d : Nat → Nat}
    (h : treeOk m d = true) : (m.states 0).is_matching = false := by
  simp only [treeOk, Bool.and_eq_true, decide_eq_true_eq, beq_iff_eq] at h
  exact h.1.1.1.1.1.2

theorem treeOk_d0 {m : ACMachine σ V} {d : Nat → Nat}
    (h : treeOk m d = true) : d 0 = 0 := by
  simp only [treeOk, Bool.and_eq_true, decide_eq_true_eq, beq_iff_eq] at h
  exact h.1.1.1.1.2

theorem treeOk_size {m : ACMachine σ V} {d : Nat → Nat}
    (h : treeOk m d = true) : m.size = m.ids.length := by
  simp only [treeOk, Bool.and_eq_true, decide_eq_true_eq, beq_iff_eq] at h
  exact h.1.1.1.2

theorem treeOk_dlt {m : ACMachine σ V} {d : Nat → Nat}
    (h : treeOk m d = true) : ∀ s ∈ m.ids, d s < m.size := by
  simp only [treeOk, Bool.and_eq_true, decide_eq_true_eq, beq_iff_eq,
    List.all_eq_true] at h
  exact fun s hs => (h.1.1.2 s hs).1

theorem treeOk_next_id {m : ACMachine σ V} {d : Nat → Nat}
    (h : treeOk m d = true) : ∀ s ∈ m.ids, s < m.next_id := by
  simp only [treeOk, Bool.and_eq_true, decide_eq_true_eq, beq_iff_eq,
    List.all_eq_true] at h
  exact fun s hs => (h.1.1.2 s hs).2

theorem treeOk_edge {m : ACMachine σ V} {d : Nat → Nat}
    (h : treeOk m d = true) :
    ∀ p ∈ m.ids, ∀ i e, (m.states p).goto_array[i]? = some e →
      e.2 ∈ m.ids ∧ e.2 ≠ 0 ∧ (m.states e.2).previous_state = some p ∧
      (m.states e.2).previous_i = i ∧ d e.2 = d p + 1 := by
  simp only [treeOk, Bool.and_eq_true, List.all_eq_true] at h
  intro p hp i e he
  have hlen : i < (m.states p).goto_array.length :=
    List.getElem?_eq_some.mp he |>.1
  have h2 := h.1.2 p hp i (List.mem_range.mpr hlen)
  rw [he] at h2
  simp only [Bool.and_eq_true, decide_eq_true_eq, beq_iff_eq] at h2
  exact ⟨h2.1.1.1.1, h2.1.1.1.2, h2.1.1.2, h2.1.2, h2.2⟩

theorem treeOk_parent {m : ACMachine σ V} {d : Nat → Nat}
    (h : treeOk m d = true) :
    ∀ s ∈ m.ids, s ≠ 0 → ∃ p, (m.states s).previous_state = some p ∧
      p ∈ m.ids ∧ ∃ e, (m.states p).goto_array[(m.states s).previous_i]? =
        some e ∧ e.2 = s := by
  simp only [treeOk, Bool.and_eq_true, List.all_eq_true] at h
  intro s hs hs0
  have h2 := h.2 s hs
  simp only [Bool.or_eq_true, beq_iff_eq] at h2
  rcases h2 with h2 | h2
  · exact absurd h2 hs0
  · cases hprev : (m.states s).previous_state with
    | none => rw [hprev] at h2; simp at h2
    | some p =>
      rw [hprev] at h2
      simp only [Bool.and_eq_true, decide_eq_true_eq] at h2
      obtain ⟨hpmem, h3⟩ := h2
      cases hget : (m.states p).goto_array[(m.states s).previous_i]? with
      | none => rw [hget] at h3; simp at h3
      | some e =>
        rw [hget] at h3
        simp only [beq_iff_eq] at h3
        exact ⟨p, rfl, hpmem, e, hget, h3⟩

theorem failOk_root {m : ACMachine σ V} {d : Nat → Nat}
    (h : failOk m d = true) : (m.states 0).fail_state = none := by
  simp only [failOk, Bool.and_eq_true, decide_eq_true_eq] at h
  exact h.1

theorem failOk_fail {m : ACMachine σ V} {d : Nat → Nat}
    (h : failOk m d = true) :
    ∀ s ∈ m.ids, s ≠ 0 → ∃ f, (m.states s).fail_state = some f ∧
      f ∈ m.ids ∧ d f < d s := by
  simp only [failOk, Bool.and_eq_true, decide_eq_true_eq,
    List.all_eq_true] at h
  intro s hs hs0
  have h2 := h.2 s hs
  simp only [Bool.or_eq_true, beq_iff_eq] at h2
  rcases h2 with h2 | h2
  · exact absurd h2 hs0
  · revert h2
    cases hf : (m.states s).fail_state with
    | none => simp
    | some f =>
      simp only [Bool.and_eq_true, decide_eq_true_eq]
      intro h2
      exact ⟨f, rfl, h2.1, h2.2⟩

theorem failOk_none_iff {m : ACMachine σ V} {d : Nat → Nat}
    (h : failOk m d = true) :
    ∀ s ∈ m.ids, ((m.states s).fail_state = none ↔ s = 0) := by
  intro s hs
  constructor
  · intro hnone
    by_contra hs0
    obtain ⟨f, hf, _, _⟩ := failOk_fail h s hs hs0
    rw [hnone] at hf
    exact Option.noConfusion hf
  · intro hs0
    subst hs0
    exact failOk_root h

theorem failOk_failBelow {m : ACMachine σ V} {d : Nat → Nat}
    (h : failOk m d = true) :
    FailBelow m.states d (fun x => x ∈ m.ids) := by
  intro x hx f hf
  by_cases hx0 : x = 0
  · subst hx0
    rw [failOk_root h] at hf
    exact Option.noConfusion hf
  · obtain ⟨f2, hf2, hmem, hd⟩ := failOk_fail h x hx hx0
    rw [hf] at hf2
    cases hf2
    exact ⟨hmem, hd⟩

theorem outputOk_identity {m : ACMachine σ V} (h : outputOk m = true) :
    ∀ s ∈ m.ids, (m.states s).nb_sequence =
      stateBase (m.states s) +
        (match (m.states s).fail_state with
         | some f => (m.states f).nb_sequence
         | none => 0) := by
  simp only [outputOk, List.all_eq_true, beq_iff_eq] at h
  exact h

theorem countsFresh_iff {m : ACMachine σ V} :
    countsFresh m = true ↔
      ∀ s ∈ m.ids, (m.states s).nb_sequence = stateBase (m.states s) := by
  simp only [countsFresh, List.all_eq_true, beq_iff_eq]

end CheckerLemmas

section StateGotoLemmas

theorem findEdge_some_idx {eqf : σ → σ → Bool} {c : σ}
    {l : List (σ × Nat)} {t : Nat} (h : findEdge eqf c l = some t) :
    ∃ (i : Nat) (e : σ × Nat), l[i]? = some e ∧ eqf e.1 c = true ∧ e.2 = t := by
  induction l with
  | nil => simp [findEdge] at h
  | cons e rest ih =>
    by_cases he : eqf e.1 c = true
    · refine ⟨0, e, by simp, he, ?_⟩
      simp [findEdge, he] at h
      exact h
    · simp only [findEdge, he, Bool.false_eq_true, if_false] at h
      obtain ⟨i, e2, hget, heq, ht⟩ := ih h
      exact ⟨i + 1, e2, by simpa using hget, heq, ht⟩

theorem findEdge_mem {eqf : σ → σ → Bool} {c : σ}
    {l : List (σ × Nat)} {t : Nat} (h : findEdge eqf c l = some t) :
    ∃ e ∈ l, eqf e.1 c = true ∧ e.2 = t := by
  obtain ⟨i, e, hget, heq, ht⟩ := findEdge_some_idx h
  exact ⟨e, List.getElem?_mem hget, heq, ht⟩

theorem findEdge_append_some {eqf : σ → σ → Bool} {c : σ}
    {l l2 : List (σ × Nat)} {t : Nat} (h : findEdge eqf c l = some t) :
    findEdge eqf c (l ++ l2) = some t := by
  induction l with
  | nil => simp [findEdge] at h
  | cons e rest ih =>
    rw [List.cons_append]
    cases he : eqf e.1 c with
    | true =>
      have h1 : findEdge eqf c (e :: rest) = some e.2 := by
        simp [findEdge, he]
      rw [h1] at h
      simpa [findEdge, he] using h
    | false =>
      have h1 : findEdge eqf c (e :: rest) = findEdge eqf c rest := by
        simp [findEdge, he]
      rw [h1] at h
      have h2 : findEdge eqf c (e :: (rest ++ l2)) =
          findEdge eqf c (rest ++ l2) := by
        simp [findEdge, he]
      rw [h2]
      exact ih h

/-- Fuel monotonicity of `state_goto`: a successful walk stays successful
with more fuel. -/
theorem state_goto_mono {eqf : σ → σ → Bool} {st : Nat → ACState σ V}
    {fuel1 fuel2 s c r} (h12 : fuel1 ≤ fuel2)
    (h : state_goto eqf st fuel1 s c = some r) :
    state_goto eqf st fuel2 s c = some r := by
  induction fuel1 generalizing fuel2 s with
  | zero => simp [state_goto] at h
  | succ n ih =>
    cases fuel2 with
    | zero => exact absurd h12 (by omega)
    | succ n2 =>
      rw [state_goto] at h ⊢
      cases hfind : findEdge eqf c (st s).goto_array with
      | some t => rw [hfind] at h; simpa [hfind] using h
      | none =>
        rw [hfind] at h
        cases hfail : (st s).fail_state with
        | none => rw [hfail] at h; simpa [hfail] using h
        | some f =>
          rw [hfail] at h
          simp only [hfail]
          exact ih (by omega) h

theorem failReach_below {st : Nat → ACState σ V} {d : Nat → Nat}
    {X : Nat → Prop} (hX : FailBelow st d X) {s t : Nat}
    (h : FailReach st s t) : X s → X t ∧ d t ≤ d s := by
  induction h with
  | refl s => exact fun hs => ⟨hs, le_refl _⟩
  | @step s f t hf _ ih =>
    intro hs
    obtain ⟨hXf, hdf⟩ := hX s hs f hf
    obtain ⟨hXt, hdt⟩ := ih hXf
    exact ⟨hXt, by omega⟩

/-- Characterization of a `state_goto` walk with enough fuel: it stops at
a fail-reachable state and either follows an edge there or returns that
state because its fail link is absent. -/
theorem state_goto_spec {eqf : σ → σ → Bool} {st : Nat → ACState σ V}
    {d : Nat → Nat} {X : Nat → Prop} (hX : FailBelow st d X)
    {s : Nat} (hs : X s) (c : σ) {fuel : Nat} (hf : d s < fuel) :
    ∃ t, FailReach st s t ∧ X t ∧
      ((∃ g, findEdge eqf c (st t).goto_array = some g ∧
          state_goto eqf st fuel s c = some g) ∨
       (findEdge eqf c (st t).goto_array = none ∧ (st t).fail_state = none ∧
          state_goto eqf st fuel s c = some t)) := by
  induction fuel generalizing s with
  | zero => omega
  | succ n ih =>
    rw [state_goto]
    cases hfind : findEdge eqf c (st s).goto_array with
    | some g =>
      exact ⟨s, FailReach.refl s, hs, Or.inl ⟨g, hfind, rfl⟩⟩
    | none =>
      cases hfail : (st s).fail_state with
      | none =>
        exact ⟨s, FailReach.refl s, hs, Or.inr ⟨hfind, hfail, rfl⟩⟩
      | some f =>
        obtain ⟨hXf, hdf⟩ := hX s hs f hfail
        obtain ⟨t, hr, hXt, hcase⟩ := ih hXf (by omega)
        exact ⟨t, FailReach.step hfail hr, hXt, hcase⟩

/-- Totality of `state_goto` with enough fuel over a fail-closed region. -/
theorem state_goto_total {eqf : σ → σ → Bool} {st : Nat → ACState σ V}
    {d : Nat → Nat} {X : Nat → Prop} (hX : FailBelow st d X)
    {s : Nat} (hs : X s) (c : σ) {fuel : Nat} (hf : d s < fuel) :
    ∃ r, state_goto eqf st fuel s c = some r := by
  obtain ⟨t, _, _, hcase⟩ := @state_goto_spec σ V eqf st d X hX s hs c fuel hf
  rcases hcase with ⟨g, _, hres⟩ | ⟨_, _, hres⟩
  · exact ⟨g, hres⟩
  · exact ⟨t, hres⟩

/-- Fuel independence of `state_goto` beyond the depth of the start
state. -/
theorem state_goto_stable {eqf : σ → σ → Bool} {st : Nat → ACState σ V}
    {d : Nat → Nat} {X : Nat → Prop} (hX : FailBelow st d X)
    {s : Nat} (hs : X s) (c : σ) {fuel1 fuel2 : Nat}
    (h1 : d s < fuel1) (h2 : d s < fuel2) :
    state_goto eqf st fuel1 s c = state_goto eqf st fuel2 s c := by
  obtain ⟨r, hr⟩ := @state_goto_total σ V eqf st d X hX s hs c (d s + 1)
    (show d s < d s + 1 by omega)
  rw [state_goto_mono (by omega : d s + 1 ≤ fuel1) hr,
      state_goto_mono (by omega : d s + 1 ≤ fuel2) hr]

end StateGotoLemmas

section ConcreteMachines

/-- Concrete machine over `Char` symbols and `Nat` values with the
keywords `he`, `hex`, `she`, before any rebuild. -/
def exM0 : ACMachine Char Nat :=
  (machine_goto_update
    (machine_goto_update
      (machine_goto_update (ACM_create (fun a b => a == b))
        ['h', 'e'] none false).2.1
      ['h', 'e', 'x'] none false).2.1
    ['s', 'h', 'e'] none false).2.1

/-- The machine `exM0` after a failure-layer rebuild. -/
def exM : ACMachine Char Nat := state_fail_state_construct exM0

/-- Trie depth of each state of `exM0` / `exM`
(ids: 0 = root, 1 = h, 2 = he, 3 = hex, 4 = s, 5 = sh, 6 = she). -/
def exD : Nat → Nat := fun s =>
  if s = 0 then 0
  else if s = 1 then 1
  else if s = 2 then 2
  else if s = 3 then 3
  else if s = 4 then 1
  else if s = 5 then 2
  else 3

end ConcreteMachines

section C1Section

/-- C1: for every state `s` of a machine whose failure layer has been
rebuilt (`treeOk`/`failOk`) and every symbol `c`, the transition function
`state_goto` used by the feed operation `ACM_match` (with the same fuel
`m.size`) returns the child of the first outgoing edge of `s` whose
letter `eq`-matches `c` when such an edge exists; otherwise, if `s` is
the root, it returns the root itself (the implicit self-loop); otherwise
it equals `state_goto` applied to `s`'s fail state and `c`.  In
particular it is total: it yields a state for every state and symbol. -/
theorem C1_delta_cases (m : ACMachine σ V) (d : Nat → Nat) (s : Nat) (c : σ)
    (ht : treeOk m d = true) (hf : failOk m d = true) (hs : s ∈ m.ids) :
    (∀ t, findEdge m.eq c (m.states s).goto_array = some t →
        state_goto m.eq m.states m.size s c = some t) ∧
    (findEdge m.eq c (m.states s).goto_array = none → s = 0 →
        state_goto m.eq m.states m.size s c = some 0) ∧
    (findEdge m.eq c (m.states s).goto_array = none → s ≠ 0 →
        ∃ f, (m.states s).fail_state = some f ∧
          state_goto m.eq m.states m.size s c =
            state_goto m.eq m.states m.size f c) ∧
    (state_goto m.eq m.states m.size s c).isSome = true := by
  have hX := failOk_failBelow hf
  have hdlt := treeOk_dlt ht s hs
  have hpos : 0 < m.size := by
    rw [treeOk_size ht]
    exact List.length_pos_of_mem (treeOk_root_mem ht)
  obtain ⟨n, hn⟩ : ∃ n, m.size = n + 1 := ⟨m.size - 1, by omega⟩
  refine ⟨?_, ?_, ?_, ?_⟩
  · intro t hfind
    rw [hn]
    simp only [state_goto, hfind]
  · intro hfind hs0
    subst hs0
    rw [hn]
    simp only [state_goto, hfind, failOk_root hf]
  · intro hfind hs0
    obtain ⟨f, hfl, hfmem, hdf⟩ := failOk_fail hf s hs hs0
    refine ⟨f, hfl, ?_⟩
    have key : state_goto m.eq m.states m.size s c =
        state_goto m.eq m.states n f c := by
      rw [hn]
      simp only [state_goto, hfind, hfl]
    rw [key]
    exact @state_goto_stable σ V m.eq m.states d (fun x => x ∈ m.ids)
      hX f hfmem c n m.size (by omega) (by omega)
  · obtain ⟨r, hr⟩ := @state_goto_total σ V m.eq m.states d
      (fun x => x ∈ m.ids) hX s hs c m.size hdlt
    rw [hr]
    rfl

/-- Witness for C1 at a concrete rebuilt machine, state and symbol. -/
theorem C1_witness :
    (state_goto exM.eq exM.states exM.size 6 'x').isSome = true :=
  (C1_delta_cases exM exD 6 'x' (by decide) (by decide)
    (by decide)).2.2.2

end C1Section

section RegisterLemmas

theorem walk_full_eq_some_iff {eqf : σ → σ → Bool} {st : Nat → ACState σ V} :
    ∀ (seq : List σ) (sid e : Nat),
      walk_full eqf st sid seq = some e ↔
        walk_longest eqf st sid seq = (e, []) := by
  intro seq
  induction seq with
  | nil =>
    intro sid e
    simp [walk_full, walk_longest, Prod.ext_iff]
  | cons c rest ih =>
    intro sid e
    cases hfind : findEdge eqf c (st sid).goto_array with
    | some t => simp [walk_full, walk_longest, hfind, ih]
    | none => simp [walk_full, walk_longest, hfind, Prod.ext_iff]

theorem append_states_nil (m : ACMachine σ V) (sid : Nat) :
    append_states m sid [] = (m, sid) := rfl

/-- The endpoint of a non-empty appended suffix is a freshly created
state, hence non-matching. -/
theorem append_states_fresh_nonmatching :
    ∀ (rest : List σ) (m : ACMachine σ V) (sid : Nat), rest ≠ [] →
      ((append_states m sid rest).1.states
        (append_states m sid rest).2).is_matching = false := by
  intro rest
  induction rest with
  | nil => intro m sid h; exact absurd rfl h
  | cons c rest2 ih =>
    intro m sid _
    rw [append_states]
    cases rest2 with
    | nil => simp [append_states, updState, state_create]
    | cons c2 r3 => exact ih _ _ (by simp)

/-- C5 (amended): `machine_goto_update` (hence `ACM_register_keyword`)
returns false exactly when the keyword is empty or already a current
keyword (its endpoint exists and is terminal, which is what
`get_last_state` decides); in every false case the machine is returned
unchanged and no value destructor is invoked at all — in particular the
supplied value's destructor is NOT invoked on it (the caller's value is
simply discarded unreleased), contrary to the original claim. -/
theorem C5_register_false_iff (m : ACMachine σ V) (seq : List σ)
    (v : Option V) (dt : Bool) :
    ((machine_goto_update m seq v dt).1 = false ↔
      (seq = [] ∨ (get_last_state m seq).isSome = true)) ∧
    ((machine_goto_update m seq v dt).1 = false →
      (machine_goto_update m seq v dt).2.1 = m ∧
      (machine_goto_update m seq v dt).2.2 = []) := by
  by_cases hlen : seq.length = 0
  · have hnil : seq = [] := List.length_eq_zero.mp hlen
    subst hnil
    simp [machine_goto_update, get_last_state]
  · have hne : seq ≠ [] := fun h => hlen (by simp [h])
    cases hwalk : walk_longest m.eq m.states 0 seq with
    | mk ws rest =>
      cases rest with
      | nil =>
        have hfull : walk_full m.eq m.states 0 seq = some ws :=
          (walk_full_eq_some_iff seq 0 ws).mpr hwalk
        by_cases hmatch : (m.states ws).is_matching = true
        · constructor
          · simp [machine_goto_update, hlen, hwalk, append_states_nil,
              hmatch, get_last_state, hfull]
          · intro _
            simp [machine_goto_update, hlen, hwalk, append_states_nil, hmatch]
        · have hmatch2 : (m.states ws).is_matching = false := by
            simpa using hmatch
          constructor
          · simp [machine_goto_update, hlen, hwalk, append_states_nil,
              hmatch2, get_last_state, hfull, hne]
          · intro hfalse
            exfalso
            simp [machine_goto_update, hlen, hwalk, append_states_nil,
              hmatch2] at hfalse
      | cons c2 r2 =>
        have hfresh := append_states_fresh_nonmatching (c2 :: r2) m ws
          (by simp)
        have hfull : walk_full m.eq m.states 0 seq = none := by
          cases hfull2 : walk_full m.eq m.states 0 seq with
          | none => rfl
          | some e =>
            have := (walk_full_eq_some_iff seq 0 e).mp hfull2
            rw [hwalk] at this
            simp at this
        constructor
        · simp [machine_goto_update, hlen, hwalk, hfresh,
            get_last_state, hfull, hne]
        · intro hfalse
          exfalso
          simp [machine_goto_update, hlen, hwalk, hfresh] at hfalse

/-- Witness for C5 (amended theorem) at a concrete machine: registering
the already-present keyword `he` with a value and a destructor leaves the
machine unchanged and invokes no destructor. -/
theorem C5_witness :
    (machine_goto_update exM0 ['h', 'e'] (some 5) true).2.1 = exM0 ∧
    (machine_goto_update exM0 ['h', 'e'] (some 5) true).2.2 = [] := by
  have h := C5_register_false_iff exM0 ['h', 'e'] (some 5) true
  exact h.2 (by decide)

/-- Counterexample for C5 as originally stated: on this concrete failed
registration a value and a destructor were supplied, yet the destructor
is invoked zero times, not exactly once. -/
theorem C5_counterexample :
    (machine_goto_update exM0 ['h', 'e'] (some 5) true).1 = false ∧
    (machine_goto_update exM0 ['h', 'e'] (some 5) true).2.2 = [] ∧
    ((machine_goto_update exM0 ['h', 'e'] (some 5) true).2.2.length = 1 →
      False) := by
  decide

end RegisterLemmas

section RankLemmas

theorem append_states_rank :
    ∀ (rest : List σ) (m : ACMachine σ V) (sid : Nat),
      (append_states m sid rest).1.rank = m.rank := by
  intro rest
  induction rest with
  | nil => intro m sid; rfl
  | cons c rest2 ih => intro m sid; rw [append_states]; exact ih _ _

/-- Rank evolution of one registration: the counter is incremented by
exactly one on success and untouched on failure. -/
theorem register_rank_cases (m : ACMachine σ V) (seq : List σ)
    (v : Option V) (dt : Bool) :
    ((machine_goto_update m seq v dt).1 = true ∧
      (machine_goto_update m seq v dt).2.1.rank = m.rank + 1) ∨
    ((machine_goto_update m seq v dt).1 = false ∧
      (machine_goto_update m seq v dt).2.1.rank = m.rank) := by
  by_cases hlen : seq.length = 0
  · right; simp [machine_goto_update, hlen]
  · cases hwalk : walk_longest m.eq m.states 0 seq with
    | mk ws rest =>
      by_cases hm : ((append_states m ws rest).1.states
          (append_states m ws rest).2).is_matching = true
      · right
        simp [machine_goto_update, hlen, hwalk, hm, append_states_rank]
      · left
        have hm2 : ((append_states m ws rest).1.states
            (append_states m ws rest).2).is_matching = false := by
          simpa using hm
        simp [machine_goto_update, hlen, hwalk, hm2, append_states_rank]

/-- On success, the keyword endpoint receives exactly the pre-call value
of the rank counter. -/
theorem register_endpoint_rank {m : ACMachine σ V} {seq : List σ}
    {v : Option V} {dt : Bool}
    (h : (machine_goto_update m seq v dt).1 = true) :
    ((machine_goto_update m seq v dt).2.1.states
      (register_endpoint m seq)).rank = m.rank := by
  by_cases hlen : seq.length = 0
  · simp [machine_goto_update, hlen] at h
  · cases hwalk : walk_longest m.eq m.states 0 seq with
    | mk ws rest =>
      by_cases hm : ((append_states m ws rest).1.states
          (append_states m ws rest).2).is_matching = true
      · simp [machine_goto_update, hlen, hwalk, hm] at h
      · have hm2 : ((append_states m ws rest).1.states
            (append_states m ws rest).2).is_matching = false := by
          simpa using hm
        simp [machine_goto_update, hlen, hwalk, hm2, register_endpoint,
          updState, append_states_rank]

theorem prune_loop_rank :
    ∀ (fuel : Nat) (m : ACMachine σ V) (last : Nat) (slog : List σ)
      (vlog : List V), (prune_loop fuel m last slog vlog).1.rank = m.rank := by
  intro fuel
  induction fuel with
  | zero => intro m last slog vlog; rfl
  | succ n ih =>
    intro m last slog vlog
    rw [prune_loop]
    cases (m.states last).previous_state with
    | none => rfl
    | some prev =>
      simp only
      split
      · rw [ih]
      · rfl

theorem unregister_rank (m : ACMachine σ V) (y : List σ) :
    (ACM_unregister_keyword m y).2.1.rank = m.rank := by
  rw [ACM_unregister_keyword]
  cases get_last_state m y with
  | none => rfl
  | some last =>
    simp only
    split
    · rfl
    · simp [prune_loop_rank]

theorem construct_rank (m : ACMachine σ V) :
    (state_fail_state_construct m).rank = m.rank := rfl

theorem applyOp_rank_le (m : ACMachine σ V) (op : MOp σ V) :
    m.rank ≤ (applyOp m op).rank := by
  cases op with
  | reg k val dt =>
    rcases register_rank_cases m k val dt with ⟨_, h⟩ | ⟨_, h⟩ <;>
      simp [applyOp, h]
  | unreg k => simp [applyOp, unregister_rank]
  | rebuild => simp [applyOp, construct_rank]

theorem runOps_rank_le (ops : List (MOp σ V)) :
    ∀ (m : ACMachine σ V), m.rank ≤ (runOps m ops).rank := by
  induction ops with
  | nil => intro m; exact le_refl _
  | cons op rest ih =>
    intro m
    rw [runOps]
    exact le_trans (applyOp_rank_le m op) (ih _)

/-- C7: ranks are assigned from the machine rank counter: a successful
registration stamps the endpoint with the current counter value and
increments the counter by exactly one; unregistration never decrements
it; the counter never decreases across any operation sequence; and
re-registering the same keyword after any operations (in particular after
unregistering it) assigns a strictly greater rank than the first
registration did. -/
theorem C7_rank_discipline (m : ACMachine σ V) (seq : List σ)
    (v : Option V) (dt : Bool) (y : List σ) (ops : List (MOp σ V))
    (hsucc : (machine_goto_update m seq v dt).1 = true) :
    ((machine_goto_update m seq v dt).2.1.states
        (register_endpoint m seq)).rank = m.rank ∧
    (machine_goto_update m seq v dt).2.1.rank = m.rank + 1 ∧
    (ACM_unregister_keyword m y).2.1.rank = m.rank ∧
    m.rank ≤ (runOps m ops).rank ∧
    (∀ (v2 : Option V) (dt2 : Bool),
      (machine_goto_update
        (runOps (machine_goto_update m seq v dt).2.1 ops) seq v2 dt2).1 =
          true →
      m.rank <
        ((machine_goto_update
            (runOps (machine_goto_update m seq v dt).2.1 ops) seq v2
              dt2).2.1.states
          (register_endpoint
            (runOps (machine_goto_update m seq v dt).2.1 ops) seq)).rank) := by
  have hrank1 : (machine_goto_update m seq v dt).2.1.rank = m.rank + 1 := by
    rcases register_rank_cases m seq v dt with ⟨_, h⟩ | ⟨hfalse, _⟩
    · exact h
    · rw [hsucc] at hfalse; exact Bool.noConfusion hfalse
  refine ⟨register_endpoint_rank hsucc, hrank1, unregister_rank m y,
    runOps_rank_le ops m, ?_⟩
  intro v2 dt2 hsucc2
  rw [register_endpoint_rank hsucc2]
  have h2 := runOps_rank_le ops (machine_goto_update m seq v dt).2.1
  omega

/-- Witness for C7: register `a`, unregister it, re-register it; the
second insertion's rank (1) is strictly greater than the first (0). -/
theorem C7_witness :
    (ACM_create (fun a b => a == b) : ACMachine Char Nat).rank <
      ((machine_goto_update
          (runOps (machine_goto_update
            (ACM_create (fun a b => a == b) : ACMachine Char Nat)
            ['a'] none false).2.1 [MOp.unreg ['a']]) ['a'] none false).2.1.states
        (register_endpoint
          (runOps (machine_goto_update
            (ACM_create (fun a b => a == b) : ACMachine Char Nat)
            ['a'] none false).2.1 [MOp.unreg ['a']]) ['a'])).rank := by
  have h := C7_rank_discipline
    (ACM_create (fun a b => a == b) : ACMachine Char Nat)
    ['a'] none false ['a'] [MOp.unreg ['a']] (by decide)
  exact h.2.2.2.2 none false (by decide)

end RankLemmas

section CodeBugSection

/-- C4 (code bug, evaluated at the failing input): on the rebuilt machine
with keywords `he`, `hex`, `she` (`reconstruct = 0`, i.e. CLEAN),
unregistering `he` takes the soft case (the endpoint keeps its child
`x`): the call succeeds and decrements the keyword count, but the C code
returns before the `reconstruct = 2` assignment, so the flag stays CLEAN
(0) instead of moving to OUTPUT_ALSO (2) as the claim (and the spec)
require.  Consequently the next feeds serve stale output counts: feeding
`she` still reports 2 matches although `he` was removed and only `she`
matches, whereas after the rebuild that an OUTPUT_ALSO flag would have
forced (last conjunct) the same feed reports 1. -/
theorem C4_soft_unregister_keeps_clean :
    exM.reconstruct = 0 ∧
    (ACM_unregister_keyword exM ['h', 'e']).1 = true ∧
    (ACM_unregister_keyword exM ['h', 'e']).2.1.nb_sequence = 2 ∧
    (ACM_unregister_keyword exM ['h', 'e']).2.1.reconstruct = 0 ∧
    ((feed_word (ACM_unregister_keyword exM ['h', 'e']).2.1 0
        ['s', 'h', 'e']).map (fun t => t.2.2)) = some 2 ∧
    ((feed_word
        { (ACM_unregister_keyword exM ['h', 'e']).2.1 with reconstruct := 2 }
        0 ['s', 'h', 'e']).map (fun t => t.2.2)) = some 1 := by
  decide

/-- Concrete machine over `Char` with the keywords `ab`, `ac`, `ad`
(ids: 0 = root, 1 = a, 2 = ab, 3 = ac, 4 = ad). -/
def exN : ACMachine Char Nat :=
  (machine_goto_update
    (machine_goto_update
      (machine_goto_update (ACM_create (fun a b => a == b))
        ['a', 'b'] none false).2.1
      ['a', 'c'] none false).2.1
    ['a', 'd'] none false).2.1

/-- C6 (code bug, evaluated at the failing input): unregistering `ab`
prunes the leaf reached by the first of the three edges `b`, `c`, `d` of
state `a`.  The compaction loop invokes the symbol destructor on `b`
(the removed edge) but ALSO on `c`, the symbol of a surviving sibling
edge, which remains referenced by the compacted edge list — while the
claim requires exactly one `sym_drop` per removed edge and none for
surviving siblings.  Dually, unregistering `ad` (last edge) invokes the
destructor zero times, leaking the removed edge's symbol.  The re-indexing
of the surviving siblings' `previous_i` fields, by contrast, is performed
correctly (last conjuncts). -/
theorem C6_sym_drop_wrong_edges :
    (ACM_unregister_keyword exN ['a', 'b']).1 = true ∧
    (ACM_unregister_keyword exN ['a', 'b']).2.2.1 = ['b', 'c'] ∧
    ((ACM_unregister_keyword exN ['a', 'b']).2.1.states 1).goto_array =
      [('c', 3), ('d', 4)] ∧
    ((ACM_unregister_keyword exN ['a', 'b']).2.1.states 3).previous_i = 0 ∧
    ((ACM_unregister_keyword exN ['a', 'b']).2.1.states 4).previous_i = 1 ∧
    (ACM_unregister_keyword exN ['a', 'd']).2.2.1 = [] := by
  decide

end CodeBugSection

section ResetLemmas

/-- The children (goto targets) of a state in a store. -/
def childrenOf (st : Nat → ACState σ V) (r : Nat) : List Nat :=
  (st r).goto_array.map Prod.snd

/-- Reachability along goto edges, with an explicit path length. -/
inductive ReachN (st : Nat → ACState σ V) : Nat → Nat → Nat → Prop
  | refl (a : Nat) : ReachN st a a 0
  | step {a b c n : Nat} : b ∈ childrenOf st a → ReachN st b c n →
      ReachN st a c (n + 1)

/-- Two stores agree on the structural fields (edges, back-links,
terminality) of every state. -/
def SameCore (st st' : Nat → ACState σ V) : Prop :=
  ∀ x, (st' x).goto_array = (st x).goto_array ∧
       (st' x).previous_state = (st x).previous_state ∧
       (st' x).previous_i = (st x).previous_i ∧
       (st' x).is_matching = (st x).is_matching

theorem sameCore_refl (st : Nat → ACState σ V) : SameCore st st :=
  fun _ => ⟨rfl, rfl, rfl, rfl⟩

theorem sameCore_trans {st1 st2 st3 : Nat → ACState σ V}
    (h1 : SameCore st1 st2) (h2 : SameCore st2 st3) : SameCore st1 st3 := by
  intro x
  obtain ⟨a1, b1, c1, d1⟩ := h1 x
  obtain ⟨a2, b2, c2, d2⟩ := h2 x
  exact ⟨a2.trans a1, b2.trans b1, c2.trans c1, d2.trans d1⟩

theorem reachN_transfer {st st' : Nat → ACState σ V}
    (hsc : SameCore st st') {a b n : Nat} (h : ReachN st a b n) :
    ReachN st' a b n := by
  induction h with
  | refl a => exact ReachN.refl a
  | @step a b c n hb _ ih =>
    refine ReachN.step ?_ ih
    have := (hsc a).1
    simpa [childrenOf, this] using hb

theorem reachN_snoc {st : Nat → ACState σ V} {a b c : Nat} {n : Nat}
    (h : ReachN st a b n) (hc : c ∈ childrenOf st b) :
    ReachN st a c (n + 1) := by
  induction h with
  | refl a => exact ReachN.step hc (ReachN.refl c)
  | @step a2 b2 c2 n2 hb2 _ ih => exact ReachN.step hb2 (ih hc)

/-- Invariant preservation along a left fold. -/
theorem foldl_preserve {α β : Type} {P : β → Prop} {f : β → α → β}
    (hf : ∀ b a, P b → P (f b a)) :
    ∀ (l : List α) (b : β), P b → P (l.foldl f b) := by
  intro l
  induction l with
  | nil => intro b hb; exact hb
  | cons a rest ih => intro b hb; exact ih (f b a) (hf b a hb)

/-- Establish-then-preserve along a left fold over a list containing a
distinguished element. -/
theorem foldl_establish {α β : Type} {P Q : β → Prop} {f : β → α → β}
    {c : α} (hP : ∀ b a, P b → P (f b a))
    (hest : ∀ b, P b → Q (f b c)) (hQ : ∀ b a, Q b → Q (f b a)) :
    ∀ (l : List α) (b : β), c ∈ l → P b → Q (l.foldl f b) := by
  intro l
  induction l with
  | nil => intro b hc; exact absurd hc (List.not_mem_nil c)
  | cons a rest ih =>
    intro b hc hPb
    rcases List.mem_cons.mp hc with hac | hcr
    · subst hac
      exact foldl_preserve hQ rest (f b c) (hest b hPb)
    · exact ih (f b a) hcr (hP b a hPb)

/-- Unfolding equation of `state_reset_output` at positive fuel. -/
theorem state_reset_output_succ (fuel : Nat) (st : Nat → ACState σ V)
    (r : Nat) :
    state_reset_output (fuel + 1) st r =
      ((st r).goto_array.map Prod.snd).foldl
        (fun acc c => state_reset_output fuel acc c)
        (updState st r
          { st r with nb_sequence := if (st r).is_matching then 1 else 0 }) :=
  rfl

/-- A reset either leaves a state untouched or replaces its count by its
base; no other field ever changes. -/
theorem reset_cases :
    ∀ (fuel : Nat) (st : Nat → ACState σ V) (r x : Nat),
      (state_reset_output fuel st r) x = st x ∨
      (state_reset_output fuel st r) x =
        { st x with nb_sequence := if (st x).is_matching then 1 else 0 } := by
  intro fuel
  induction fuel with
  | zero => intro st r x; left; rfl
  | succ n ih =>
    intro st r x
    rw [state_reset_output_succ]
    refine foldl_preserve
      (P := fun acc : Nat → ACState σ V => acc x = st x ∨ acc x =
        { st x with nb_sequence := if (st x).is_matching then 1 else 0 })
      ?_ _ _ ?_
    · intro acc c hacc
      rcases ih acc c x with h2 | h2 <;> rcases hacc with h1 | h1
      · left; rw [h2, h1]
      · right; rw [h2, h1]
      · rw [h2, h1]; right; rfl
      · rw [h2, h1]; right; rfl
    · by_cases hx : x = r
      · subst hx; right; simp [updState]
      · left; exact updState_other _ _ _ _ hx

theorem reset_sameCore (fuel : Nat) (st : Nat → ACState σ V) (r : Nat) :
    SameCore st (state_reset_output fuel st r) := by
  intro x
  rcases reset_cases fuel st r x with h | h <;> rw [h] <;> exact ⟨rfl, rfl, rfl, rfl⟩

theorem reset_fail (fuel : Nat) (st : Nat → ACState σ V) (r x : Nat) :
    ((state_reset_output fuel st r) x).fail_state = (st x).fail_state := by
  rcases reset_cases fuel st r x with h | h <;> rw [h]

/-- With enough fuel, every state reachable from the reset root has its
count reset to its base. -/
theorem reset_covers :
    ∀ (fuel : Nat) (st : Nat → ACState σ V) (r x n : Nat),
      ReachN st r x n → n < fuel →
      ((state_reset_output fuel st r) x).nb_sequence =
        (if (st x).is_matching then 1 else 0) := by
  intro fuel
  induction fuel with
  | zero => intro st r x n _ hn; omega
  | succ fl ih =>
    intro st r x n hreach hn
    rw [state_reset_output_succ]
    cases hreach with
    | refl =>
      refine (foldl_preserve
        (P := fun acc : Nat → ACState σ V =>
          (acc r).is_matching = (st r).is_matching ∧
          (acc r).nb_sequence = (if (st r).is_matching then 1 else 0))
        ?_ _ _ ?_).2
      · intro acc c hacc
        rcases reset_cases fl acc c r with h2 | h2 <;> rw [h2]
        · exact hacc
        · exact ⟨hacc.1, by simp [hacc.1, hacc.2]⟩
      · simp [updState]
    | @step a b c2 n0 hb hrest =>
      -- path r → b →* x of length n0 + 1
      refine (foldl_establish
        (P := fun acc : Nat → ACState σ V => SameCore st acc)
        (Q := fun acc : Nat → ACState σ V =>
          (acc x).is_matching = (st x).is_matching ∧
          (acc x).nb_sequence = (if (st x).is_matching then 1 else 0))
        ?_ ?_ ?_ _ _ hb ?_).2
      · intro acc a2 hacc
        exact sameCore_trans hacc (reset_sameCore fl acc a2)
      · intro acc hacc
        have hreach2 : ReachN acc b x n0 := reachN_transfer hacc hrest
        have hm : ((state_reset_output fl acc b) x).is_matching =
            (st x).is_matching := by
          rcases reset_cases fl acc b x with h2 | h2 <;> rw [h2] <;>
            exact (hacc x).2.2.2
        refine ⟨hm, ?_⟩
        have := ih acc b x n0 hreach2 (by omega)
        rw [this, (hacc x).2.2.2]
      · intro acc a2 hacc
        rcases reset_cases fl acc a2 x with h2 | h2 <;> rw [h2]
        · exact hacc
        · exact ⟨hacc.1, by simp [hacc.1, hacc.2]⟩
      · intro y
        constructor
        · by_cases hy : y = r
          · subst hy; simp [updState]
          · rw [updState_other _ _ _ _ hy]
        · by_cases hy : y = r
          · subst hy; simp [updState]
          · rw [updState_other _ _ _ _ hy]
            exact ⟨rfl, rfl, rfl⟩

end ResetLemmas

section SeedLemmas

/-- A seeding pass either leaves a state untouched or sets its fail link
to the root; no other field changes. -/
theorem seed_cases :
    ∀ (l : List Nat) (st : Nat → ACState σ V) (x : Nat),
      (seed_children st l) x = st x ∨
      (seed_children st l) x = { st x with fail_state := some 0 } := by
  intro l
  induction l with
  | nil => intro st x; left; rfl
  | cons c rest ih =>
    intro st x
    rw [seed_children]
    rcases ih (updState st c { st c with fail_state := some 0 }) x with h | h <;>
      rw [h] <;> by_cases hx : x = c
    · subst hx; right; simp [updState]
    · left; exact updState_other _ _ _ _ hx
    · subst hx; right; simp [updState]
    · right; rw [updState_other _ _ _ _ hx]

theorem seed_mem :
    ∀ (l : List Nat) (st : Nat → ACState σ V) (c : Nat), c ∈ l →
      ((seed_children st l) c).fail_state = some 0 := by
  intro l
  induction l with
  | nil => intro st c hc; exact absurd hc (List.not_mem_nil c)
  | cons a rest ih =>
    intro st c hc
    rw [seed_children]
    rcases List.mem_cons.mp hc with hca | hcr
    · subst hca
      rcases seed_cases rest (updState st c { st c with fail_state := some 0 })
        c with h | h <;> rw [h] <;> simp [updState]
    · exact ih _ c hcr

theorem seed_not_mem :
    ∀ (l : List Nat) (st : Nat → ACState σ V) (x : Nat), x ∉ l →
      (seed_children st l) x = st x := by
  intro l
  induction l with
  | nil => intro st x _; rfl
  | cons a rest ih =>
    intro st x hx
    rw [seed_children]
    rw [ih _ x (fun h => hx (List.mem_cons_of_mem a h))]
    exact updState_other _ _ _ _ (fun h => hx (h ▸ List.mem_cons_self a rest))

theorem seed_sameCore (l : List Nat) (st : Nat → ACState σ V) :
    SameCore st (seed_children st l) := by
  intro x
  rcases seed_cases l st x with h | h <;> rw [h] <;> exact ⟨rfl, rfl, rfl, rfl⟩

theorem seed_nb (l : List Nat) (st : Nat → ACState σ V) (x : Nat) :
    ((seed_children st l) x).nb_sequence = (st x).nb_sequence := by
  rcases seed_cases l st x with h | h <;> rw [h]

end SeedLemmas

section TreeHSection

/-- The structural and pre-loop hypotheses of the breadth-first
reconstruction, over the store `B` that enters the queue loop. -/
structure TreeH (d : Nat → Nat) (ids : List Nat) (size : Nat)
    (B : Nat → ACState σ V) : Prop where
  root_mem : 0 ∈ ids
  nodup : ids.Nodup
  edge : ∀ p ∈ ids, ∀ (i : Nat) (e : σ × Nat), (B p).goto_array[i]? = some e →
    e.2 ∈ ids ∧ e.2 ≠ 0 ∧ (B e.2).previous_state = some p ∧
    (B e.2).previous_i = i ∧ d e.2 = d p + 1
  parent : ∀ s ∈ ids, s ≠ 0 → ∃ p, (B s).previous_state = some p ∧
    p ∈ ids ∧ ∃ e, (B p).goto_array[(B s).previous_i]? = some e ∧ e.2 = s
  d0 : d 0 = 0
  dlt : ∀ s ∈ ids, d s < size
  size_eq : size = ids.length
  root_fail : (B 0).fail_state = none
  seeded : ∀ c ∈ childrenOf B 0, (B c).fail_state = some 0

/-- In-edge uniqueness: a state determines its parent edge. -/
theorem TreeH.edge_unique {d : Nat → Nat} {ids : List Nat} {size : Nat}
    {B : Nat → ACState σ V} (H : TreeH d ids size B)
    {p i p2 i2 : Nat} {e e2 : σ × Nat} (hp : p ∈ ids) (hp2 : p2 ∈ ids)
    (h1 : (B p).goto_array[i]? = some e)
    (h2 : (B p2).goto_array[i2]? = some e2) (hsame : e.2 = e2.2) :
    p = p2 ∧ i = i2 := by
  obtain ⟨_, _, hprev1, hi1, _⟩ := H.edge p hp i e h1
  obtain ⟨_, _, hprev2, hi2, _⟩ := H.edge p2 hp2 i2 e2 h2
  rw [hsame] at hprev1 hi1
  rw [hprev1] at hprev2
  cases hprev2
  exact ⟨rfl, hi1 ▸ hi2 ▸ rfl⟩

/-- Membership in `childrenOf` comes from an edge. -/
theorem mem_childrenOf {B : Nat → ACState σ V} {r s : Nat}
    (h : s ∈ childrenOf B r) :
    ∃ (i : Nat) (e : σ × Nat), (B r).goto_array[i]? = some e ∧ e.2 = s := by
  simp only [childrenOf, List.mem_map] at h
  obtain ⟨e, he, hs⟩ := h
  obtain ⟨i, hi, hget⟩ := List.getElem_of_mem he
  exact ⟨i, e, by rw [List.getElem?_eq_some]; exact ⟨hi, hget⟩, hs⟩

theorem childrenOf_mem {B : Nat → ACState σ V} {r : Nat} {i : Nat}
    {e : σ × Nat} (h : (B r).goto_array[i]? = some e) :
    e.2 ∈ childrenOf B r := by
  simp only [childrenOf, List.mem_map]
  exact ⟨e, List.getElem?_mem h, rfl⟩

/-- The children of one state are pairwise distinct. -/
theorem TreeH.children_nodup {d : Nat → Nat} {ids : List Nat} {size : Nat}
    {B : Nat → ACState σ V} (H : TreeH d ids size B) {p : Nat}
    (hp : p ∈ ids) : (childrenOf B p).Nodup := by
  rw [childrenOf, List.nodup_iff_getElem?_ne_getElem?]
  intro i j hij hj hne
  rw [List.length_map] at hj
  obtain ⟨ei, hei⟩ : ∃ ei, (B p).goto_array[i]? = some ei := by
    have : i < (B p).goto_array.length := by omega
    exact ⟨(B p).goto_array[i], List.getElem?_eq_some.mpr ⟨this, rfl⟩⟩
  obtain ⟨ej, hej⟩ : ∃ ej, (B p).goto_array[j]? = some ej := by
    exact ⟨(B p).goto_array[j], List.getElem?_eq_some.mpr ⟨hj, rfl⟩⟩
  have hmi : ((B p).goto_array.map Prod.snd)[i]? = some ei.2 := by
    rw [List.getElem?_map, hei]; rfl
  have hmj : ((B p).goto_array.map Prod.snd)[j]? = some ej.2 := by
    rw [List.getElem?_map, hej]; rfl
  rw [hmi, hmj] at hne
  have heq : ei.2 = ej.2 := Option.some.inj hne
  obtain ⟨_, hij2⟩ := H.edge_unique hp hp hei hej heq
  omega

/-- Non-root states have positive depth. -/
theorem TreeH.d_pos {d : Nat → Nat} {ids : List Nat} {size : Nat}
    {B : Nat → ACState σ V} (H : TreeH d ids size B) {s : Nat}
    (hs : s ∈ ids) (hs0 : s ≠ 0) : 0 < d s := by
  obtain ⟨p, _, hpmem, e, hget, he2⟩ := H.parent s hs hs0
  have := (H.edge p hpmem _ e hget).2.2.2.2
  rw [he2] at this
  omega

/-- Every state is reachable from the root along goto edges, with a path
of length its depth. -/
theorem TreeH.reach_root {d : Nat → Nat} {ids : List Nat} {size : Nat}
    {B : Nat → ACState σ V} (H : TreeH d ids size B) :
    ∀ (n s : Nat), s ∈ ids → d s = n → ReachN B 0 s n := by
  intro n
  induction n using Nat.strong_induction_on with
  | _ n ih =>
    intro s hs hds
    by_cases hs0 : s = 0
    · subst hs0
      have : n = 0 := by rw [← hds, H.d0]
      subst this
      exact ReachN.refl 0
    · obtain ⟨p, _, hpmem, e, hget, he2⟩ := H.parent s hs hs0
      have hedge := H.edge p hpmem _ e hget
      have hdp : d s = d p + 1 := by rw [← he2]; exact hedge.2.2.2.2
      obtain ⟨n0, hn0⟩ : ∃ n0, n = n0 + 1 := ⟨d p, by omega⟩
      subst hn0
      have hreachp : ReachN B 0 p n0 := ih n0 (by omega) p hpmem (by omega)
      -- extend the path at the far end: we need ReachN 0 → p → s
      have hchild : s ∈ childrenOf B p := by
        have := childrenOf_mem hget
        rwa [he2] at this
      exact reachN_snoc hreachp hchild

end TreeHSection

section LoopInvariantSection

/-- The queue-loop invariant of the breadth-first reconstruction: the
queue is exactly the root children followed by the children of the
processed prefix, in nondecreasing depth order and without duplicates;
the store differs from the base store `B` only on queued states, whose
fail links are set, point into the already-written region with strictly
smaller depth, and whose counts satisfy the accumulation equation. -/
structure LoopInv (d : Nat → Nat) (ids : List Nat)
    (B st : Nat → ACState σ V) (q : List Nat) (i : Nat) : Prop where
  iLe : i ≤ q.length
  struct : q = childrenOf B 0 ++ ((q.take i).map (childrenOf B)).flatten
  nodup : q.Nodup
  root_not : 0 ∉ q
  mem : ∀ s ∈ q, s ∈ ids
  sorted : q.Pairwise (fun a b => d a ≤ d b)
  core : SameCore B st
  root_st : st 0 = B 0
  frame : ∀ x, x ≠ 0 → x ∉ q → st x = B x
  written : ∀ s ∈ q, ∃ f, (st s).fail_state = some f ∧ (f = 0 ∨ f ∈ q) ∧
    d f < d s ∧ ((B 0).nb_sequence = 0 →
      (st s).nb_sequence = (B s).nb_sequence + (st f).nb_sequence)

variable {d : Nat → Nat} {ids : List Nat} {size : Nat}
variable {B : Nat → ACState σ V}

/-- The queue is strictly shorter than the number of states. -/
theorem LoopInv.len_lt {st : Nat → ACState σ V} {q : List Nat} {i : Nat}
    (H : TreeH d ids size B) (inv : LoopInv d ids B st q i) :
    q.length < size := by
  have hsub : (0 :: q) ⊆ ids := by
    intro x hx
    rcases List.mem_cons.mp hx with h | h
    · subst h; exact H.root_mem
    · exact inv.mem x h
  have hnd : (0 :: q).Nodup := List.nodup_cons.mpr ⟨inv.root_not, inv.nodup⟩
  have := (List.subperm_of_subset hnd hsub).length_le
  rw [List.length_cons] at this
  rw [H.size_eq]
  omega

/-- Children of a processed state are in the queue. -/
theorem LoopInv.child_of_processed {st : Nat → ACState σ V} {q : List Nat}
    {i : Nat} (inv : LoopInv d ids B st q i) {t g : Nat}
    (ht : t ∈ q.take i) (hg : g ∈ childrenOf B t) : g ∈ q := by
  rw [inv.struct]
  refine List.mem_append_right _ (List.mem_flatten.mpr ?_)
  exact ⟨childrenOf B t, List.mem_map_of_mem (childrenOf B) ht, hg⟩

/-- Children of the root are in the queue. -/
theorem LoopInv.child_of_root {st : Nat → ACState σ V} {q : List Nat}
    {i : Nat} (inv : LoopInv d ids B st q i) {g : Nat}
    (hg : g ∈ childrenOf B 0) : g ∈ q := by
  rw [inv.struct]
  exact List.mem_append_left _ hg

/-- Decomposition of a list at a successfully read position. -/
theorem queue_split {q : List Nat} {i r : Nat}
    (hri : q[i]? = some r) :
    q = q.take i ++ r :: q.drop (i + 1) := by
  have hlt : i < q.length := (List.getElem?_eq_some.mp hri).1
  have hr : q[i] = r := (List.getElem?_eq_some.mp hri).2
  rw [← hr, List.getElem_cons_drop, List.take_append_drop]

/-- A queued state of depth strictly below the dequeued one has been
processed already. -/
theorem LoopInv.processed_of_dlt {st : Nat → ACState σ V} {q : List Nat}
    {i r : Nat} (inv : LoopInv d ids B st q i) (hri : q[i]? = some r)
    {t : Nat} (htq : t ∈ q) (hdt : d t < d r) : t ∈ q.take i := by
  have hsplit := queue_split hri
  by_contra hnot
  have htq2 : t ∈ q.take i ++ r :: q.drop (i + 1) := hsplit ▸ htq
  rcases List.mem_append.mp htq2 with h | h
  · exact hnot h
  · have hsorted : (q.take i ++ r :: q.drop (i + 1)).Pairwise
        (fun a b => d a ≤ d b) := hsplit ▸ inv.sorted
    have hpair := (List.pairwise_append.mp hsorted).2.1
    rcases List.mem_cons.mp h with h2 | h2
    · subst h2; omega
    · have := (List.pairwise_cons.mp hpair).1 t h2
      omega

/-- Every element of the queue has depth at most one more than the
dequeued element's depth. -/
theorem LoopInv.depth_le {st : Nat → ACState σ V} {q : List Nat} {i r : Nat}
    (H : TreeH d ids size B) (inv : LoopInv d ids B st q i)
    (hri : q[i]? = some r) {t : Nat} (htq : t ∈ q) : d t ≤ d r + 1 := by
  have hrq : r ∈ q := List.getElem?_mem hri
  have hrid : r ∈ ids := inv.mem r hrq
  have ht2 : t ∈ childrenOf B 0 ++ ((q.take i).map (childrenOf B)).flatten :=
    inv.struct ▸ htq
  rcases List.mem_append.mp ht2 with h | h
  · obtain ⟨i0, e0, hget, he2⟩ := mem_childrenOf h
    have := (H.edge 0 H.root_mem i0 e0 hget).2.2.2.2
    rw [he2] at this
    rw [this, H.d0]
    omega
  · obtain ⟨lp, hlp, htlp⟩ := List.mem_flatten.mp h
    obtain ⟨p, hp, hlp2⟩ := List.mem_map.mp hlp
    subst hlp2
    obtain ⟨i0, e0, hget, he2⟩ := mem_childrenOf htlp
    have hpq : p ∈ q := List.mem_of_mem_take hp
    have hdt : d t = d p + 1 := by
      have := (H.edge p (inv.mem p hpq) i0 e0 hget).2.2.2.2
      rw [he2] at this
      exact this
    -- p is before r in the queue, so d p ≤ d r
    have hsplit := queue_split hri
    have hsorted : (q.take i ++ r :: q.drop (i + 1)).Pairwise
        (fun a b => d a ≤ d b) := hsplit ▸ inv.sorted
    have hpr := (List.pairwise_append.mp hsorted).2.2 p hp r
      (List.mem_cons_self r _)
    omega

/-- No child of the dequeued state is already in the queue. -/
theorem LoopInv.child_not_in_q {st : Nat → ACState σ V} {q : List Nat}
    {i r : Nat} (H : TreeH d ids size B) (inv : LoopInv d ids B st q i)
    (hri : q[i]? = some r) {jj : Nat} {e : σ × Nat}
    (hget : (B r).goto_array[jj]? = some e) : e.2 ∉ q := by
  have hrq : r ∈ q := List.getElem?_mem hri
  have hrid : r ∈ ids := inv.mem r hrq
  intro hmem
  have h2 : e.2 ∈ childrenOf B 0 ++ ((q.take i).map (childrenOf B)).flatten :=
    inv.struct ▸ hmem
  rcases List.mem_append.mp h2 with h | h
  · obtain ⟨i0, e0, hget0, he2⟩ := mem_childrenOf h
    obtain ⟨hp0, _⟩ := H.edge_unique hrid H.root_mem hget hget0 he2.symm
    exact inv.root_not (hp0 ▸ hrq)
  · obtain ⟨lp, hlp, htlp⟩ := List.mem_flatten.mp h
    obtain ⟨p, hp, hlp2⟩ := List.mem_map.mp hlp
    subst hlp2
    obtain ⟨i0, e0, hget0, he2⟩ := mem_childrenOf htlp
    have hpq : p ∈ q := List.mem_of_mem_take hp
    obtain ⟨hp0, _⟩ := H.edge_unique hrid (inv.mem p hpq) hget hget0 he2.symm
    subst hp0
    -- r would be both at position i and in the processed prefix
    have hsplit := queue_split hri
    have hnd : (q.take i ++ r :: q.drop (i + 1)).Nodup := hsplit ▸ inv.nodup
    have := (List.disjoint_of_nodup_append hnd) hp (List.mem_cons_self r _)
    exact this

end LoopInvariantSection

section ProcessEdgesSection

variable {d : Nat → Nat} {ids : List Nat} {size : Nat}
variable {B : Nat → ACState σ V}
variable {eqf : σ → σ → Bool}

theorem sameCore_symm {st st' : Nat → ACState σ V} (h : SameCore st st') :
    SameCore st' st := by
  intro x
  obtain ⟨a, b, c, e⟩ := h x
  exact ⟨a.symm, b.symm, c.symm, e.symm⟩

theorem pairwise_of_mem {α : Type} {R : α → α → Prop} :
    ∀ (l : List α), (∀ a ∈ l, ∀ b ∈ l, R a b) → l.Pairwise R := by
  intro l
  induction l with
  | nil => intro _; exact List.Pairwise.nil
  | cons a rest ih =>
    intro h
    refine List.Pairwise.cons ?_ (ih ?_)
    · intro b hb
      exact h a (List.mem_cons_self a rest) b (List.mem_cons_of_mem a hb)
    · intro x hx y hy
      exact h x (List.mem_cons_of_mem a hx) y (List.mem_cons_of_mem a hy)

/-- Unfolding equation for `process_edges` on a non-empty edge list. -/
theorem process_edges_cons (gfuel : Nat)
    (st : Nat → ACState σ V) (r : Nat) (q : List Nat) (e : σ × Nat)
    (rest : List (σ × Nat)) :
    process_edges eqf gfuel st r q (e :: rest) =
      process_edges eqf gfuel
        (updState st e.2 { st e.2 with
            fail_state := (match (st r).fail_state with
              | none => none
              | some f => state_goto eqf st gfuel f e.1),
            nb_sequence := (st e.2).nb_sequence +
              (match (match (st r).fail_state with
                      | none => none
                      | some f => state_goto eqf st gfuel f e.1) with
               | some f2 => (st f2).nb_sequence
               | none => 0) })
        r (q ++ [e.2]) rest := rfl

/-- Invariant through the inner edge loop of the reconstruction. -/
structure MidInv (d : Nat → Nat) (ids : List Nat)
    (B st0 st : Nat → ACState σ V) (q0 : List Nat)
    (done : List (σ × Nat)) : Prop where
  frame2 : ∀ x, x ∉ done.map Prod.snd → st x = st0 x
  core2 : SameCore B st
  fresh2 : ∀ s ∈ done.map Prod.snd, s ≠ 0 ∧ s ∉ q0
  written2 : ∀ s ∈ done.map Prod.snd, ∃ f, (st s).fail_state = some f ∧
    (f = 0 ∨ f ∈ q0) ∧ d f < d s ∧
    (st s).nb_sequence = (B s).nb_sequence + (st f).nb_sequence

/-- The inner edge loop, specified: each processed child is appended to
the queue, receives a fail link into the already-written region of
strictly smaller depth, and its count equation. -/
theorem process_edges_aux
    (H : TreeH d ids size B) {st0 : Nat → ACState σ V} {q0 : List Nat}
    {i r : Nat} (inv : LoopInv d ids B st0 q0 i) (hri : q0[i]? = some r) :
    ∀ (E2 done : List (σ × Nat)) (st : Nat → ACState σ V),
      (B r).goto_array = done ++ E2 →
      MidInv d ids B st0 st q0 done →
      (process_edges eqf size st r (q0 ++ done.map Prod.snd) E2).2 =
          q0 ++ ((done ++ E2).map Prod.snd) ∧
        MidInv d ids B st0
          (process_edges eqf size st r (q0 ++ done.map Prod.snd) E2).1
          q0 (done ++ E2) := by
  have hrq : r ∈ q0 := List.getElem?_mem hri
  have hrid : r ∈ ids := inv.mem r hrq
  intro E2
  induction E2 with
  | nil =>
    intro done st harr hmid
    rw [process_edges, List.append_nil]
    exact ⟨rfl, hmid⟩
  | cons e rest ih =>
    intro done st harr hmid
    -- the edge being processed sits at index `done.length` of r's edges
    have hgetj : (B r).goto_array[done.length]? = some e := by
      rw [harr, List.getElem?_append_right (Nat.le_refl done.length)]
      simp
    obtain ⟨hsid, hs0, hsprev, hsprevi, hsd⟩ :=
      H.edge r hrid done.length e hgetj
    have hsq0 : e.2 ∉ q0 := inv.child_not_in_q H hri hgetj
    -- the child is not among the children already processed in this round
    have hsdone : e.2 ∉ done.map Prod.snd := by
      intro hmem
      obtain ⟨e0, he0, he02⟩ := List.mem_map.mp hmem
      obtain ⟨j, hj, hgetj0⟩ := List.getElem_of_mem he0
      have hget0 : (B r).goto_array[j]? = some e0 := by
        rw [harr, List.getElem?_append_left hj]
        exact List.getElem?_eq_some.mpr ⟨hj, hgetj0⟩
      obtain ⟨_, hji⟩ := H.edge_unique hrid hrid hget0 hgetj he02
      omega
    -- r itself is never one of its own children
    have hrdone : r ∉ done.map Prod.snd := by
      intro hmem
      obtain ⟨e0, he0, he02⟩ := List.mem_map.mp hmem
      obtain ⟨j, hj, hgetj0⟩ := List.getElem_of_mem he0
      have hget0 : (B r).goto_array[j]? = some e0 := by
        rw [harr, List.getElem?_append_left hj]
        exact List.getElem?_eq_some.mpr ⟨hj, hgetj0⟩
      have := (H.edge r hrid j e0 hget0).2.2.2.2
      rw [he02] at this
      omega
    -- states in the written region {0} ∪ q0 are untouched by this round
    have hXagree : ∀ x, (x = 0 ∨ x ∈ q0) → st x = st0 x := by
      intro x hx
      refine hmid.frame2 x ?_
      intro hmem
      obtain ⟨hne0, hnq0⟩ := hmid.fresh2 x hmem
      rcases hx with h | h
      · exact hne0 h
      · exact hnq0 h
    have hXbelow : FailBelow st d (fun x => x = 0 ∨ x ∈ q0) := by
      intro x hx f hf
      rcases hx with h | h
      · subst h
        rw [hXagree 0 (Or.inl rfl), inv.root_st, H.root_fail] at hf
        exact Option.noConfusion hf
      · obtain ⟨f2, hf2, hf2mem, hdf2, _⟩ := inv.written x h
        rw [hXagree x (Or.inr h)] at hf
        rw [hf] at hf2
        cases hf2
        exact ⟨hf2mem, hdf2⟩
    -- the dequeued state keeps its written fail link
    obtain ⟨fr, hfr, hfrmem, hdfr, _⟩ := inv.written r hrq
    have hstr : (st r).fail_state = some fr := by
      rw [hmid.frame2 r hrdone]
      exact hfr
    have hfrid : fr ∈ ids := by
      rcases hfrmem with h | h
      · subst h; exact H.root_mem
      · exact inv.mem fr h
    -- run state_goto from fr on the letter of the edge
    obtain ⟨t, hFR, hXt, hcase⟩ :=
      @state_goto_spec σ V eqf st d (fun x => x = 0 ∨ x ∈ q0) hXbelow
        fr hfrmem e.1 size (lt_of_lt_of_le
        (lt_of_lt_of_le hdfr (le_of_lt (H.dlt r hrid))) (le_refl size))
    have hdt : d t ≤ d fr := (failReach_below hXbelow hFR hfrmem).2
    -- the result g of the walk: in the written region, depth ≤ d r
    have hkey : ∃ g, state_goto eqf st size fr e.1 = some g ∧
        (g = 0 ∨ g ∈ q0) ∧ d g < d e.2 := by
      rcases hcase with ⟨g, hfind, hres⟩ | ⟨hfind, hfail, hres⟩
      · -- an edge of t matches: g is t's child, t is processed
        have hgt : (st t).goto_array = (B t).goto_array := (hmid.core2 t).1
        rw [hgt] at hfind
        obtain ⟨i0, e0, hget0, _, he02⟩ := findEdge_some_idx hfind
        have htid : t ∈ ids := by
          rcases hXt with h | h
          · subst h; exact H.root_mem
          · exact inv.mem t h
        have hdg : d g = d t + 1 := by
          have := (H.edge t htid i0 e0 hget0).2.2.2.2
          rw [he02] at this
          exact this
        refine ⟨g, hres, ?_, by omega⟩
        rcases hXt with h | h
        · subst h
          right
          refine inv.child_of_root ?_
          have := childrenOf_mem hget0
          rwa [he02] at this
        · right
          have hproc : t ∈ q0.take i :=
            inv.processed_of_dlt hri h (by omega)
          refine inv.child_of_processed hproc ?_
          have := childrenOf_mem hget0
          rwa [he02] at this
      · -- the walk bottomed out: only the root has no fail link
        have ht0 : t = 0 := by
          rcases hXt with h | h
          · exact h
          · exfalso
            obtain ⟨f2, hf2, _, _, _⟩ := inv.written t h
            rw [hXagree t (Or.inr h), hf2] at hfail
            exact Option.noConfusion hfail
        subst ht0
        refine ⟨0, hres, Or.inl rfl, ?_⟩
        rw [H.d0, hsd]
        omega
    obtain ⟨g, hg, hgmem, hgd⟩ := hkey
    -- the store and queue after this edge
    rw [process_edges_cons]
    have hstep : (match (st r).fail_state with
        | none => none
        | some f => state_goto eqf st size f e.1) = some g := by
      simp only [hstr]
      exact hg
    -- the child's pre-write state is its base-store state
    have hsB : st e.2 = B e.2 := by
      rw [hmid.frame2 e.2 hsdone]
      exact inv.frame e.2 hs0 hsq0
    have hgs : g ≠ e.2 := by
      intro h
      rcases hgmem with h2 | h2
      · exact hs0 (h ▸ h2)
      · exact hsq0 (h ▸ h2)
    -- IH applied at done ++ [e]
    have harr2 : (B r).goto_array = (done ++ [e]) ++ rest := by
      rw [harr, List.append_assoc]
      rfl
    have hmap : (done ++ [e]).map Prod.snd = done.map Prod.snd ++ [e.2] := by
      simp
    have hq2 : q0 ++ done.map Prod.snd ++ [e.2] =
        q0 ++ (done ++ [e]).map Prod.snd := by
      rw [hmap, List.append_assoc]
    set stW := updState st e.2 { st e.2 with
        fail_state := (match (st r).fail_state with
          | none => none
          | some f => state_goto eqf st size f e.1),
        nb_sequence := (st e.2).nb_sequence +
          (match (match (st r).fail_state with
                  | none => none
                  | some f => state_goto eqf st size f e.1) with
           | some f2 => (st f2).nb_sequence
           | none => 0) } with hstW
    have hmid2 : MidInv d ids B st0 stW q0 (done ++ [e]) := by
      refine ⟨?_, ?_, ?_, ?_⟩
      · intro x hx
        rw [hmap] at hx
        have hx1 : x ∉ done.map Prod.snd := fun h =>
          hx (List.mem_append_left _ h)
        have hx2 : x ≠ e.2 := fun h =>
          hx (List.mem_append_right _ (h ▸ List.mem_singleton_self _))
        rw [hstW, updState_other _ _ _ _ hx2]
        exact hmid.frame2 x hx1
      · intro x
        by_cases hx : x = e.2
        · subst hx
          rw [hstW, updState_same]
          exact hmid.core2 e.2
        · rw [hstW, updState_other _ _ _ _ hx]
          exact hmid.core2 x
      · intro s hs
        rw [hmap] at hs
        rcases List.mem_append.mp hs with h | h
        · exact hmid.fresh2 s h
        · rw [List.mem_singleton] at h
          subst h
          exact ⟨hs0, hsq0⟩
      · intro s hs
        rw [hmap] at hs
        rcases List.mem_append.mp hs with h | h
        · obtain ⟨f, hf, hfmem2, hdf2, hcnt⟩ := hmid.written2 s h
          have hsne : s ≠ e.2 := by
            intro heq
            exact hsdone (heq ▸ h)
          have hfne : f ≠ e.2 := by
            intro heq
            rcases hfmem2 with h2 | h2
            · exact hs0 (heq ▸ h2)
            · exact hsq0 (heq ▸ h2)
          refine ⟨f, ?_, hfmem2, hdf2, ?_⟩
          · rw [hstW, updState_other _ _ _ _ hsne]
            exact hf
          · rw [hstW, updState_other _ _ _ _ hsne,
              updState_other _ _ _ _ hfne]
            exact hcnt
        · rw [List.mem_singleton] at h
          subst h
          refine ⟨g, ?_, hgmem, hgd, ?_⟩
          · rw [hstW, updState_same, hstep]
          · rw [hstW, updState_same, updState_other _ _ _ _ hgs]
            simp only [hstep]
            rw [hsB]
    have := ih (done ++ [e]) stW harr2 hmid2
    rw [hq2]
    constructor
    · rw [this.1]
      simp
    · have h2 := this.2
      rw [List.append_assoc, List.singleton_append] at h2
      exact h2

/-- One dequeue step of the reconstruction loop preserves the
invariant. -/
theorem construct_step
    (H : TreeH d ids size B) {st0 : Nat → ACState σ V} {q0 : List Nat}
    {i r : Nat} (inv : LoopInv d ids B st0 q0 i) (hri : q0[i]? = some r) :
    LoopInv d ids B
      (process_edges eqf size st0 r q0 (st0 r).goto_array).1
      (process_edges eqf size st0 r q0 (st0 r).goto_array).2 (i + 1) := by
  have hrq : r ∈ q0 := List.getElem?_mem hri
  have hrid : r ∈ ids := inv.mem r hrq
  have hilt : i < q0.length := (List.getElem?_eq_some.mp hri).1
  have hmid0 : MidInv d ids B st0 st0 q0 [] :=
    ⟨fun x _ => rfl, inv.core, fun s hs => absurd hs (by simp),
     fun s hs => absurd hs (by simp)⟩
  have haux := @process_edges_aux σ V d ids size B eqf H st0 q0 i r inv hri
    (B r).goto_array [] st0 (by simp) hmid0
  have hq0nil : q0 ++ (List.map Prod.snd ([] : List (σ × Nat))) = q0 := by simp
  rw [hq0nil] at haux
  have hgr : (st0 r).goto_array = (B r).goto_array := (inv.core r).1
  rw [← hgr] at haux
  simp only [List.nil_append] at haux
  obtain ⟨hq2, hmid⟩ := haux
  -- notation for the result
  set res := process_edges eqf size st0 r q0 (st0 r).goto_array with hres
  have hq2chr : res.2 = q0 ++ childrenOf B r := by
    rw [hq2, hgr]; rfl
  have hchsub : ∀ s ∈ childrenOf B r, s ∈ (st0 r).goto_array.map Prod.snd := by
    intro s hs
    rw [hgr]
    exact hs
  have hch_not_q0 : ∀ s ∈ childrenOf B r, s ∉ q0 := by
    intro s hs
    obtain ⟨i0, e0, hget0, he02⟩ := mem_childrenOf hs
    have := inv.child_not_in_q H hri hget0
    rwa [he02] at this
  have hch_ne0 : ∀ s ∈ childrenOf B r, s ≠ 0 := by
    intro s hs
    obtain ⟨i0, e0, hget0, he02⟩ := mem_childrenOf hs
    have := (H.edge r hrid i0 e0 hget0).2.1
    rwa [he02] at this
  have hch_mem : ∀ s ∈ childrenOf B r, s ∈ ids := by
    intro s hs
    obtain ⟨i0, e0, hget0, he02⟩ := mem_childrenOf hs
    have := (H.edge r hrid i0 e0 hget0).1
    rwa [he02] at this
  have hch_d : ∀ s ∈ childrenOf B r, d s = d r + 1 := by
    intro s hs
    obtain ⟨i0, e0, hget0, he02⟩ := mem_childrenOf hs
    have := (H.edge r hrid i0 e0 hget0).2.2.2.2
    rwa [he02] at this
  have htake : res.2.take (i + 1) = q0.take i ++ [r] := by
    rw [hq2chr, List.take_append_of_le_length (by omega), List.take_succ, hri]
    rfl
  refine ⟨?_, ?_, ?_, ?_, ?_, ?_, hmid.core2, ?_, ?_, ?_⟩
  · rw [hq2chr, List.length_append]
    omega
  · rw [htake, hq2chr, List.map_append, List.flatten_append]
    have hsing : (List.map (childrenOf B) [r]).flatten = childrenOf B r := by
      simp
    rw [hsing]
    conv_lhs => rw [inv.struct]
    rw [List.append_assoc]
  · rw [hq2chr, List.nodup_append]
    refine ⟨inv.nodup, H.children_nodup hrid, ?_⟩
    intro a ha hb
    exact hch_not_q0 a hb ha
  · rw [hq2chr]
    intro hmem
    rcases List.mem_append.mp hmem with h | h
    · exact inv.root_not h
    · exact hch_ne0 0 h rfl
  · rw [hq2chr]
    intro s hs
    rcases List.mem_append.mp hs with h | h
    · exact inv.mem s h
    · exact hch_mem s h
  · rw [hq2chr, List.pairwise_append]
    refine ⟨inv.sorted, ?_, ?_⟩
    · refine pairwise_of_mem _ ?_
      intro a ha b hb
      rw [hch_d a ha, hch_d b hb]
    · intro a ha b hb
      rw [hch_d b hb]
      exact inv.depth_le H hri ha
  · have h0 : (0 : Nat) ∉ (st0 r).goto_array.map Prod.snd := by
      intro h
      rw [hgr] at h
      exact hch_ne0 0 h rfl
    rw [hmid.frame2 0 h0]
    exact inv.root_st
  · intro x hx0 hxq
    rw [hq2chr] at hxq
    have hx1 : x ∉ q0 := fun h => hxq (List.mem_append_left _ h)
    have hx2 : x ∉ (st0 r).goto_array.map Prod.snd := by
      rw [hgr]
      intro h
      exact hxq (List.mem_append_right _ h)
    rw [hmid.frame2 x hx2]
    exact inv.frame x hx0 hx1
  · intro s hs
    rw [hq2chr] at hs
    rcases List.mem_append.mp hs with h | h
    · have hnotch : s ∉ (st0 r).goto_array.map Prod.snd := by
        rw [hgr]
        intro h2
        exact hch_not_q0 s h2 h
      obtain ⟨f, hf, hfmem, hdf, hcnt⟩ := inv.written s h
      have hfnotch : f ∉ (st0 r).goto_array.map Prod.snd := by
        rw [hgr]
        intro h2
        rcases hfmem with h3 | h3
        · exact hch_ne0 f h2 h3
        · exact hch_not_q0 f h2 h3
      refine ⟨f, ?_, ?_, hdf, ?_⟩
      · rw [hmid.frame2 s hnotch]; exact hf
      · rcases hfmem with h3 | h3
        · exact Or.inl h3
        · exact Or.inr (hq2chr ▸ List.mem_append_left _ h3)
      · intro hB0
        rw [hmid.frame2 s hnotch, hmid.frame2 f hfnotch]
        exact hcnt hB0
    · obtain ⟨f, hf, hfmem, hdf, hcnt⟩ := hmid.written2 s (hchsub s h)
      refine ⟨f, hf, ?_, hdf, fun _ => hcnt⟩
      rcases hfmem with h3 | h3
      · exact Or.inl h3
      · exact Or.inr (hq2chr ▸ List.mem_append_left _ h3)

/-- The reconstruction loop, fully specified: run to quiescence, the
invariant holds with every queue element processed. -/
theorem construct_loop_spec (H : TreeH d ids size B) :
    ∀ (fuel : Nat) (st : Nat → ACState σ V) (q : List Nat) (i : Nat),
      LoopInv d ids B st q i → size - i ≤ fuel →
      LoopInv d ids B (construct_loop eqf size fuel st q i).1
        (construct_loop eqf size fuel st q i).2
        (construct_loop eqf size fuel st q i).2.length := by
  intro fuel
  induction fuel with
  | zero =>
    intro st q i inv hfuel
    have h1 := inv.len_lt H
    have h2 := inv.iLe
    omega
  | succ n ih =>
    intro st q i inv hfuel
    rw [construct_loop]
    cases hq : q[i]? with
    | none =>
      have hlen : q.length ≤ i := by
        by_contra hlt
        rw [List.getElem?_eq_getElem (by omega)] at hq
        exact Option.noConfusion hq
      have hieq : i = q.length := le_antisymm inv.iLe hlen
      subst hieq
      exact inv
    | some r =>
      have hstep := @construct_step σ V d ids size B eqf H st q i r inv hq
      exact ih _ _ _ hstep (by omega)

/-- At quiescence, every non-root state has been enqueued. -/
theorem loop_complete (H : TreeH d ids size B)
    {stF : Nat → ACState σ V} {qF : List Nat}
    (inv : LoopInv d ids B stF qF qF.length) :
    ∀ (n : Nat) (s : Nat), s ∈ ids → s ≠ 0 → d s = n → s ∈ qF := by
  intro n
  induction n using Nat.strong_induction_on with
  | _ n ih =>
    intro s hs hs0 hds
    obtain ⟨p, _, hpmem, e, hget, he2⟩ := H.parent s hs hs0
    have hchild : s ∈ childrenOf B p := by
      have := childrenOf_mem hget
      rwa [he2] at this
    by_cases hp0 : p = 0
    · subst hp0
      exact inv.child_of_root hchild
    · have hdp : d s = d p + 1 := by
        have := (H.edge p hpmem _ e hget).2.2.2.2
        rw [he2] at this
        exact this
      have hpq : p ∈ qF := ih (d p) (by omega) p hpmem hp0 rfl
      have hpq2 : p ∈ qF.take qF.length := by
        rwa [List.take_length]
      exact inv.child_of_processed hpq2 hchild

end ProcessEdgesSection

section ConstructMasterSection

/-- The store after the optional output reset (`reconstruct == 2`). -/
def preB (m : ACMachine σ V) : Nat → ACState σ V :=
  if m.reconstruct = 2 then state_reset_output m.size m.states 0 else m.states

/-- The store after the reset and the root fail clear. -/
def preRoot (m : ACMachine σ V) : Nat → ACState σ V :=
  updState (preB m) 0 { (preB m) 0 with fail_state := none }

/-- The initial queue of the reconstruction loop (the root children). -/
def constructSeed (m : ACMachine σ V) : List Nat :=
  ((preRoot m) 0).goto_array.map Prod.snd

/-- The store that enters the reconstruction queue loop (after the
optional output reset, the root fail clear and the seeding). -/
def constructB (m : ACMachine σ V) : Nat → ACState σ V :=
  seed_children (preRoot m) (constructSeed m)

theorem construct_states_eq (m : ACMachine σ V) :
    (state_fail_state_construct m).states =
      (construct_loop m.eq m.size m.size (constructB m) (constructSeed m)
        0).1 := rfl

theorem construct_reconstruct (m : ACMachine σ V) :
    (state_fail_state_construct m).reconstruct = 0 := rfl

theorem construct_ids (m : ACMachine σ V) :
    (state_fail_state_construct m).ids = m.ids := rfl

theorem preB_sameCore (m : ACMachine σ V) : SameCore m.states (preB m) := by
  rw [preB]
  by_cases h2 : m.reconstruct = 2
  · rw [if_pos h2]; exact reset_sameCore _ _ _
  · rw [if_neg h2]; exact sameCore_refl _

theorem preRoot_sameCore (m : ACMachine σ V) :
    SameCore (preB m) (preRoot m) := by
  intro x
  rw [preRoot]
  by_cases hx : x = 0
  · subst hx; simp [updState]
  · rw [updState_other _ _ _ _ hx]
    exact ⟨rfl, rfl, rfl, rfl⟩

/-- Shape of the pre-loop stages: only fail links and counts change. -/
theorem constructB_sameCore (m : ACMachine σ V) :
    SameCore m.states (constructB m) := by
  rw [constructB]
  exact sameCore_trans (sameCore_trans (preB_sameCore m) (preRoot_sameCore m))
    (seed_sameCore _ _)

theorem constructSeed_eq (m : ACMachine σ V) :
    constructSeed m = childrenOf (constructB m) 0 := by
  rw [childrenOf, constructB, (seed_sameCore (constructSeed m) (preRoot m) 0).1]
  rfl

theorem constructB_nb (m : ACMachine σ V) (s : Nat) :
    ((constructB m) s).nb_sequence = ((preB m) s).nb_sequence := by
  rw [constructB, seed_nb, preRoot]
  by_cases hx : s = 0
  · subst hx; simp [updState]
  · rw [updState_other _ _ _ _ hx]

/-- Fail link of the root after the pre-loop stages: cleared. -/
theorem constructB_root_fail {m : ACMachine σ V} {d : Nat → Nat}
    (ht : treeOk m d = true) : ((constructB m) 0).fail_state = none := by
  have h0 : (0 : Nat) ∉ constructSeed m := by
    intro hmem
    rw [constructSeed_eq] at hmem
    obtain ⟨i0, e0, hget, he2⟩ := mem_childrenOf hmem
    have hg := (constructB_sameCore m 0).1
    rw [hg] at hget
    have := (treeOk_edge ht 0 (treeOk_root_mem ht) i0 e0 hget).2.1
    exact this (by rw [he2])
  rw [constructB, seed_not_mem _ _ 0 h0, preRoot]
  simp [updState]

theorem constructB_seeded (m : ACMachine σ V) :
    ∀ c ∈ childrenOf (constructB m) 0,
      ((constructB m) c).fail_state = some 0 := by
  intro c hc
  rw [← constructSeed_eq] at hc
  rw [constructB]
  exact seed_mem _ _ c hc

/-- The tree hypotheses hold for the pre-loop store. -/
theorem constructB_treeH {m : ACMachine σ V} {d : Nat → Nat}
    (ht : treeOk m d = true) : TreeH d m.ids m.size (constructB m) := by
  have hsc := constructB_sameCore m
  refine ⟨treeOk_root_mem ht, treeOk_nodup ht, ?_, ?_, treeOk_d0 ht,
    treeOk_dlt ht, treeOk_size ht, constructB_root_fail ht,
    constructB_seeded m⟩
  · intro p hp i e hget
    rw [(hsc p).1] at hget
    obtain ⟨h1, h2, h3, h4, h5⟩ := treeOk_edge ht p hp i e hget
    exact ⟨h1, h2, (hsc e.2).2.1.trans h3, (hsc e.2).2.2.1.trans h4, h5⟩
  · intro s hs hs0
    obtain ⟨p, h1, h2, e, h3, h4⟩ := treeOk_parent ht s hs hs0
    refine ⟨p, (hsc s).2.1.trans h1, h2, e, ?_, h4⟩
    rw [(hsc p).1, (hsc s).2.2.1]
    exact h3

/-- Counts of the pre-loop store are fresh when the flag was OUTPUT_ALSO
or the machine counts were already fresh. -/
theorem constructB_fresh {m : ACMachine σ V} {d : Nat → Nat}
    (ht : treeOk m d = true)
    (hcnt : m.reconstruct = 2 ∨ countsFresh m = true) :
    ∀ s ∈ m.ids, ((constructB m) s).nb_sequence =
      stateBase ((constructB m) s) := by
  intro s hs
  have hsc := constructB_sameCore m
  have hmatch : ((constructB m) s).is_matching = (m.states s).is_matching :=
    (hsc s).2.2.2
  rw [constructB_nb, stateBase, hmatch]
  by_cases h2 : m.reconstruct = 2
  · rw [preB, if_pos h2]
    have H := constructB_treeH ht
    have hreachB : ReachN (constructB m) 0 s (d s) :=
      H.reach_root (d s) s hs rfl
    have hreach : ReachN m.states 0 s (d s) :=
      reachN_transfer (sameCore_symm hsc) hreachB
    exact reset_covers m.size m.states 0 s (d s) hreach (treeOk_dlt ht s hs)
  · have hfresh : countsFresh m = true := by
      rcases hcnt with h | h
      · exact absurd h h2
      · exact h
    rw [preB, if_neg h2]
    have := countsFresh_iff.mp hfresh s hs
    rw [this, stateBase]

/-- Master specification of `state_fail_state_construct` under the tree
invariants: the failure layer is rebuilt — the root's fail link is none
and every other allocated state's fail link points at an allocated state
of strictly smaller depth — the structural fields are untouched, and,
when the rebuild ran under the OUTPUT_ALSO flag or with already-fresh
counts, the fail-chain output identity holds at every state. -/
theorem construct_master (m : ACMachine σ V) (d : Nat → Nat)
    (ht : treeOk m d = true) :
    ((state_fail_state_construct m).states 0).fail_state = none ∧
    (∀ s ∈ m.ids, s ≠ 0 →
      ∃ f, ((state_fail_state_construct m).states s).fail_state = some f ∧
        f ∈ m.ids ∧ d f < d s) ∧
    SameCore m.states (state_fail_state_construct m).states ∧
    ((m.reconstruct = 2 ∨ countsFresh m = true) →
      ∀ s ∈ m.ids, ((state_fail_state_construct m).states s).nb_sequence =
        stateBase ((state_fail_state_construct m).states s) +
          (match ((state_fail_state_construct m).states s).fail_state with
           | some f => ((state_fail_state_construct m).states f).nb_sequence
           | none => 0)) := by
  have H := constructB_treeH ht
  have hsc := constructB_sameCore m
  -- the initial loop invariant
  have hseedsub : ∀ c ∈ constructSeed m,
      ∃ (i0 : Nat) (e0 : σ × Nat),
        ((constructB m) 0).goto_array[i0]? = some e0 ∧ e0.2 = c := by
    intro c hc
    rw [constructSeed_eq] at hc
    exact mem_childrenOf hc
  have hseedd : ∀ c ∈ constructSeed m, d c = 1 := by
    intro c hc
    obtain ⟨i0, e0, hget, he2⟩ := hseedsub c hc
    have := (H.edge 0 H.root_mem i0 e0 hget).2.2.2.2
    rw [he2] at this
    rw [this, H.d0]
  have hseedne0 : ∀ c ∈ constructSeed m, c ≠ 0 := by
    intro c hc
    obtain ⟨i0, e0, hget, he2⟩ := hseedsub c hc
    have := (H.edge 0 H.root_mem i0 e0 hget).2.1
    rwa [he2] at this
  have hseedmem : ∀ c ∈ constructSeed m, c ∈ m.ids := by
    intro c hc
    obtain ⟨i0, e0, hget, he2⟩ := hseedsub c hc
    have := (H.edge 0 H.root_mem i0 e0 hget).1
    rwa [he2] at this
  have inv0 : LoopInv d m.ids (constructB m) (constructB m)
      (constructSeed m) 0 := by
    refine ⟨Nat.zero_le _, ?_, ?_, ?_, hseedmem, ?_, sameCore_refl _, rfl,
      fun _ _ _ => rfl, ?_⟩
    · rw [constructSeed_eq]; simp
    · rw [constructSeed_eq]; exact H.children_nodup H.root_mem
    · intro hmem; exact hseedne0 0 hmem rfl
    · refine pairwise_of_mem _ ?_
      intro a ha b hb
      rw [hseedd a ha, hseedd b hb]
    · intro s hs
      refine ⟨0, ?_, Or.inl rfl, ?_, ?_⟩
      · exact constructB_seeded m s (by rw [← constructSeed_eq]; exact hs)
      · rw [H.d0, hseedd s hs]; omega
      · intro hB0
        rw [hB0]
        omega
  -- run the loop
  have hloop := @construct_loop_spec σ V d m.ids m.size (constructB m) m.eq
    H m.size (constructB m) (constructSeed m) 0 inv0 (by omega)
  rw [construct_states_eq]
  set res := construct_loop m.eq m.size m.size (constructB m)
    (constructSeed m) 0 with hres
  have hcomplete : ∀ s ∈ m.ids, s ≠ 0 → s ∈ res.2 := by
    intro s hs hs0
    exact loop_complete H hloop (d s) s hs hs0 rfl
  have hroot : res.1 0 = (constructB m) 0 := hloop.root_st
  refine ⟨?_, ?_, ?_, ?_⟩
  · rw [hroot]
    exact constructB_root_fail ht
  · intro s hs hs0
    obtain ⟨f, hf, hfmem, hdf, _⟩ := hloop.written s (hcomplete s hs hs0)
    refine ⟨f, hf, ?_, hdf⟩
    rcases hfmem with h | h
    · subst h; exact H.root_mem
    · exact hloop.mem f h
  · exact sameCore_trans hsc hloop.core
  · intro hcnt s hs
    have hfreshB := constructB_fresh ht hcnt
    have hB0 : ((constructB m) 0).nb_sequence = 0 := by
      rw [hfreshB 0 H.root_mem, stateBase, (hsc 0).2.2.2,
        treeOk_root_nonmatching ht]
      rfl
    by_cases hs0 : s = 0
    · subst hs0
      rw [hroot, constructB_root_fail ht]
      rw [hB0, stateBase, (hsc 0).2.2.2, treeOk_root_nonmatching ht]
      rfl
    · obtain ⟨f, hf, hfmem, hdf, hcntf⟩ :=
        hloop.written s (hcomplete s hs hs0)
      rw [hf]
      have := hcntf hB0
      rw [this, hfreshB s hs]
      have hbase : stateBase ((constructB m) s) = stateBase (res.1 s) := by
        rw [stateBase, stateBase, (hloop.core s).2.2.2]
      rw [hbase]

end ConstructMasterSection

section C2C8Section

theorem fail_chain_total {st : Nat → ACState σ V} {d : Nat → Nat}
    {X : Nat → Prop} (hX : FailBelow st d X) {s : Nat} (hs : X s)
    {fuel : Nat} (hf : d s < fuel) :
    (fail_chain st fuel s).isSome = true := by
  induction fuel generalizing s with
  | zero => omega
  | succ n ih =>
    rw [fail_chain]
    cases hfail : (st s).fail_state with
    | none => rfl
    | some f =>
      obtain ⟨hXf, hdf⟩ := hX s hs f hfail
      have := ih hXf (by omega)
      simpa using this

theorem skip_nonmatching_total {st : Nat → ACState σ V} {d : Nat → Nat}
    {X : Nat → Prop} (hX : FailBelow st d X) {s : Nat} (hs : X s)
    {fuel : Nat} (hf : d s < fuel) :
    (skip_nonmatching st fuel s).isSome = true := by
  induction fuel generalizing s with
  | zero => omega
  | succ n ih =>
    rw [skip_nonmatching]
    by_cases hm : (st s).is_matching = true
    · simp [hm]
    · simp only [hm, Bool.false_eq_true, if_false]
      cases hfail : (st s).fail_state with
      | none => rfl
      | some f =>
        obtain ⟨hXf, hdf⟩ := hX s hs f hfail
        exact ih hXf (by omega)

/-- C2: after every run of the failure-layer rebuild, the root's fail
link is none and every state's output count equals
`(is_terminal ? 1 : 0)` plus the output count of its fail state (0 at the
root); equivalently, the number of terminal states on the fail chain
starting at the state itself.  The hypothesis covers both flag values
under which a rebuild runs: under OUTPUT_ALSO (`reconstruct = 2`) the
rebuild resets the counts itself; under STRUCTURAL the counts are
already fresh from construction, exactly as the spec describes that case
("used on first-ever rebuild when counts are already fresh"). -/
theorem C2_output_identity (m : ACMachine σ V) (d : Nat → Nat)
    (ht : treeOk m d = true)
    (hcnt : m.reconstruct = 2 ∨ countsFresh m = true) :
    ((state_fail_state_construct m).states 0).fail_state = none ∧
    ∀ s ∈ (state_fail_state_construct m).ids,
      ((state_fail_state_construct m).states s).nb_sequence =
        (if ((state_fail_state_construct m).states s).is_matching then 1
         else 0) +
          (match ((state_fail_state_construct m).states s).fail_state with
           | some f => ((state_fail_state_construct m).states f).nb_sequence
           | none => 0) := by
  obtain ⟨h1, _, _, h4⟩ := construct_master m d ht
  refine ⟨h1, ?_⟩
  intro s hs
  rw [construct_ids] at hs
  simpa [stateBase] using h4 hcnt s hs

/-- Witness for C2 at a concrete machine (fresh counts, first rebuild). -/
theorem C2_witness :
    ((state_fail_state_construct exM0).states 0).fail_state = none :=
  (C2_output_identity exM0 exD (by decide) (Or.inr (by decide))).1

/-- C8: after a rebuild of the failure layer, the root is the only state
whose fail link is none, and every non-root state's fail link points at
an allocated state of strictly smaller trie depth; consequently the
fail-chain loops terminate — the transition-function walk of `ACM_match`
succeeds (with the machine fuel) for every state and symbol, the fail
chain from every state is finite, and the non-matching skip walk of
`ACM_get_match` succeeds for every state. -/
theorem C8_fail_depth_termination (m : ACMachine σ V) (d : Nat → Nat)
    (ht : treeOk m d = true) :
    (∀ s ∈ m.ids,
      (((state_fail_state_construct m).states s).fail_state = none ↔
        s = 0)) ∧
    (∀ s ∈ m.ids, s ≠ 0 →
      ∃ f, ((state_fail_state_construct m).states s).fail_state = some f ∧
        f ∈ m.ids ∧ d f < d s) ∧
    (∀ s ∈ m.ids, ∀ c,
      (state_goto (state_fail_state_construct m).eq
        (state_fail_state_construct m).states
        (state_fail_state_construct m).size s c).isSome = true) ∧
    (∀ s ∈ m.ids,
      (fail_chain (state_fail_state_construct m).states
        (state_fail_state_construct m).size s).isSome = true) ∧
    (∀ s ∈ m.ids,
      (skip_nonmatching (state_fail_state_construct m).states
        (state_fail_state_construct m).size s).isSome = true) := by
  obtain ⟨h1, h2, _, _⟩ := construct_master m d ht
  have hX : FailBelow (state_fail_state_construct m).states d
      (fun x => x ∈ m.ids) := by
    intro x hx f hf
    by_cases hx0 : x = 0
    · subst hx0
      rw [h1] at hf
      exact Option.noConfusion hf
    · obtain ⟨f2, hf2, hfmem, hdf⟩ := h2 x hx hx0
      rw [hf] at hf2
      cases hf2
      exact ⟨hfmem, hdf⟩
  have hsize : (state_fail_state_construct m).size = m.size := rfl
  have hdlt := treeOk_dlt ht
  refine ⟨?_, h2, ?_, ?_, ?_⟩
  · intro s hs
    constructor
    · intro hnone
      by_contra hs0
      obtain ⟨f, hf, _, _⟩ := h2 s hs hs0
      rw [hnone] at hf
      exact Option.noConfusion hf
    · intro hs0
      subst hs0
      exact h1
  · intro s hs c
    have hflt : d s < (state_fail_state_construct m).size := by
      rw [hsize]; exact hdlt s hs
    obtain ⟨r, hr⟩ := @state_goto_total σ V (state_fail_state_construct m).eq
      (state_fail_state_construct m).states d (fun x => x ∈ m.ids) hX s hs c
      (state_fail_state_construct m).size hflt
    rw [hr]
    rfl
  · intro s hs
    have hflt : d s < (state_fail_state_construct m).size := by
      rw [hsize]; exact hdlt s hs
    exact fail_chain_total hX hs hflt
  · intro s hs
    have hflt : d s < (state_fail_state_construct m).size := by
      rw [hsize]; exact hdlt s hs
    exact skip_nonmatching_total hX hs hflt

/-- Witness for C8 at a concrete machine and state. -/
theorem C8_witness :
    (fail_chain (state_fail_state_construct exM0).states
      (state_fail_state_construct exM0).size 6).isSome = true :=
  (C8_fail_depth_termination exM0 exD (by decide)).2.2.2.1 6 (by decide)

end C2C8Section

section C9Section

/-- The fail-chain output identity restricted to a region. -/
def IdOn (st : Nat → ACState σ V) (X : Nat → Prop) : Prop :=
  ∀ x, X x → (st x).nb_sequence = stateBase (st x) +
    (match (st x).fail_state with
     | some f => (st f).nb_sequence
     | none => 0)

theorem idOn_none {st : Nat → ACState σ V} {X : Nat → Prop}
    (hid : IdOn st X) {x : Nat} (hx : X x)
    (h : (st x).fail_state = none) :
    (st x).nb_sequence = stateBase (st x) := by
  have h2 := hid x hx
  rw [h] at h2
  simpa using h2

theorem idOn_some {st : Nat → ACState σ V} {X : Nat → Prop}
    (hid : IdOn st X) {x f : Nat} (hx : X x)
    (h : (st x).fail_state = some f) :
    (st x).nb_sequence = stateBase (st x) + (st f).nb_sequence := by
  have h2 := hid x hx
  rw [h] at h2
  simpa using h2

theorem stateBase_le (s : ACState σ V) : stateBase s ≤ 1 := by
  rw [stateBase]
  split <;> omega

theorem stateBase_of_matching {s : ACState σ V}
    (h : s.is_matching = true) : stateBase s = 1 := by
  rw [stateBase, if_pos h]

theorem stateBase_of_not_matching {s : ACState σ V}
    (h : s.is_matching = false) : stateBase s = 0 := by
  rw [stateBase, h]
  rfl

/-- Under the identity, output counts are bounded by the depth. -/
theorem nb_le_depth {st : Nat → ACState σ V} {d : Nat → Nat}
    {X : Nat → Prop} (hX : FailBelow st d X) (hid : IdOn st X) :
    ∀ (n : Nat) (s : Nat), X s → d s ≤ n →
      (st s).nb_sequence ≤ d s + 1 := by
  intro n
  induction n with
  | zero =>
    intro s hs hd
    cases hfail : (st s).fail_state with
    | none =>
      have := idOn_none hid hs hfail
      have h2 := stateBase_le (st s)
      omega
    | some f =>
      have := (hX s hs f hfail).2
      omega
  | succ n ih =>
    intro s hs hd
    cases hfail : (st s).fail_state with
    | none =>
      have := idOn_none hid hs hfail
      have h2 := stateBase_le (st s)
      omega
    | some f =>
      obtain ⟨hXf, hdf⟩ := hX s hs f hfail
      have h1 := ih f hXf (by omega)
      have h2 := idOn_some hid hs hfail
      have h3 := stateBase_le (st s)
      omega

/-- The non-matching skip of `ACM_get_match` stops at a matching state
with the same output count, whenever the count is positive. -/
theorem skip_spec {st : Nat → ACState σ V} {d : Nat → Nat}
    {X : Nat → Prop} (hX : FailBelow st d X) (hid : IdOn st X) :
    ∀ (fuel : Nat) (s : Nat), X s → d s < fuel →
      1 ≤ (st s).nb_sequence →
      ∃ t, skip_nonmatching st fuel s = some t ∧
        (st t).is_matching = true ∧ X t ∧
        (st t).nb_sequence = (st s).nb_sequence := by
  intro fuel
  induction fuel with
  | zero => intro s _ h _; omega
  | succ n ih =>
    intro s hs hd hnb
    rw [skip_nonmatching]
    by_cases hm : (st s).is_matching = true
    · exact ⟨s, by rw [if_pos hm], hm, hs, rfl⟩
    · rw [if_neg hm]
      have hm2 : (st s).is_matching = false := by simpa using hm
      cases hfail : (st s).fail_state with
      | none =>
        have h1 := idOn_none hid hs hfail
        rw [stateBase_of_not_matching hm2] at h1
        omega
      | some f =>
        have h1 := idOn_some hid hs hfail
        rw [stateBase_of_not_matching hm2] at h1
        obtain ⟨hXf, hdf⟩ := hX s hs f hfail
        obtain ⟨t, hskip, hmt, hXt, hnbt⟩ := ih f hXf (by omega)
          (by omega)
        exact ⟨t, hskip, hmt, hXt, by omega⟩

/-- The indexed walk of `ACM_get_match` lands on the `index`-th terminal
state of the fail chain whenever `index` is below the output count. -/
theorem walk_spec {st : Nat → ACState σ V} {d : Nat → Nat} {size : Nat}
    {X : Nat → Prop} (hX : FailBelow st d X) (hid : IdOn st X)
    (hdb : ∀ x, X x → d x < size) :
    ∀ (k : Nat) (fuel : Nat) (s j : Nat), X s → k < (st s).nb_sequence →
      k < fuel →
      ∃ t, walk_to_index st size fuel (some s) j (j + k) = some (some t) ∧
        (st t).is_matching = true ∧ X t := by
  intro k
  induction k with
  | zero =>
    intro fuel s j hs hk hfuel
    obtain ⟨f2, hf2⟩ : ∃ f2, fuel = f2 + 1 := ⟨fuel - 1, by omega⟩
    subst hf2
    rw [walk_to_index]
    obtain ⟨t, hskip, hmt, hXt, _⟩ := skip_spec hX hid size s hs
      (hdb s hs) (by omega)
    simp only [hskip, Nat.add_zero]
    refine ⟨t, ?_, hmt, hXt⟩
    simp
  | succ k ih =>
    intro fuel s j hs hk hfuel
    obtain ⟨f2, hf2⟩ : ∃ f2, fuel = f2 + 1 := ⟨fuel - 1, by omega⟩
    subst hf2
    rw [walk_to_index]
    obtain ⟨t, hskip, hmt, hXt, hnbt⟩ := skip_spec hX hid size s hs
      (hdb s hs) (by omega)
    have hne : ¬ (j = j + (k + 1)) := by omega
    simp only [hskip]
    rw [if_neg hne]
    cases hfail : (st t).fail_state with
    | none =>
      have h1 := idOn_none hid hXt hfail
      have h2 := stateBase_le (st t)
      omega
    | some f =>
      have h1 := idOn_some hid hXt hfail
      have h2 := stateBase_le (st t)
      obtain ⟨hXf, _⟩ := hX t hXt f hfail
      have hkf : k < (st f).nb_sequence := by omega
      obtain ⟨t2, hwalk, hmt2, hXt2⟩ := ih f2 f (j + 1) hXf hkf (by omega)
      have hidx : j + 1 + k = j + (k + 1) := by omega
      rw [hidx] at hwalk
      exact ⟨t2, hwalk, hmt2, hXt2⟩

/-- C9: `ACM_get_match` requires `index` to be strictly below the output
count of the cursor state (the value last returned by the feed); when the
precondition is violated the call hits the fatal `ACM_ASSERT` (modelled
by the `none` result), and when it holds — on a machine with a rebuilt
failure layer — the assertion passes and the fail-chain walk reaches a
terminal state, never a null state, whose rank (with the reconstructed
keyword and value) is returned. -/
theorem C9_match_at_contract (m : ACMachine σ V) (d : Nat → Nat)
    (cursor index : Nat) (ht : treeOk m d = true) (hf : failOk m d = true)
    (ho : outputOk m = true) (hcur : cursor ∈ m.ids) :
    (¬ index < (m.states cursor).nb_sequence →
      ACM_get_match m cursor index = none) ∧
    (index < (m.states cursor).nb_sequence →
      ∃ t, t ∈ m.ids ∧ (m.states t).is_matching = true ∧
        ACM_get_match m cursor index =
          some (parent_letters m.states m.size t, (m.states t).rank,
            (m.states t).value)) := by
  constructor
  · intro hlt
    rw [ACM_get_match, if_neg hlt]
  · intro hlt
    have hX : FailBelow m.states d (fun x => x ∈ m.ids) := failOk_failBelow hf
    have hid : IdOn m.states (fun x => x ∈ m.ids) := by
      intro x hx
      exact outputOk_identity ho x hx
    have hdb : ∀ x, x ∈ m.ids → d x < m.size := treeOk_dlt ht
    have hfuel : index < m.size := by
      have h1 := nb_le_depth hX hid (d cursor) cursor hcur (le_refl _)
      have h2 := hdb cursor hcur
      omega
    obtain ⟨t, hwalk, hmt, hXt⟩ := walk_spec hX hid hdb index m.size
      cursor 0 hcur hlt hfuel
    rw [Nat.zero_add] at hwalk
    refine ⟨t, hXt, hmt, ?_⟩
    rw [ACM_get_match, if_pos hlt, hwalk]

/-- Witness for C9: on the rebuilt concrete machine, feeding up to the
`she` endpoint (output count 2), index 1 is in range and yields a
terminal state's data. -/
theorem C9_witness :
    ∃ t, t ∈ exM.ids ∧ (exM.states t).is_matching = true ∧
      ACM_get_match exM 6 1 =
        some (parent_letters exM.states exM.size t, (exM.states t).rank,
          (exM.states t).value) :=
  (C9_match_at_contract exM exD 6 1 (by decide) (by decide) (by decide)
    (by decide)).2 (by decide)

end C9Section

section C3Section

theorem eqOk_pairwise {m : ACMachine σ V} (heq : eqOk m = true) :
    ∀ s ∈ m.ids, edgesPairwiseNe m.eq (m.states s).goto_array = true := by
  simp only [eqOk, List.all_eq_true, Bool.and_eq_true] at heq
  exact fun s hs => (heq s hs).1

theorem eqOk_refl {m : ACMachine σ V} (heq : eqOk m = true) :
    ∀ s ∈ m.ids, ∀ e ∈ (m.states s).goto_array, m.eq e.1 e.1 = true := by
  simp only [eqOk, List.all_eq_true, Bool.and_eq_true] at heq
  exact fun s hs => (heq s hs).2

/-- On a state whose edge letters are pairwise distinct under `eqf` and
`eqf`-reflexive, the machine edge search agrees with the literal edge
search. -/
theorem findEdge_literal_to_eqf [DecidableEq σ] {eqf : σ → σ → Bool} :
    ∀ {l : List (σ × Nat)}, edgesPairwiseNe eqf l = true →
      (∀ e ∈ l, eqf e.1 e.1 = true) → ∀ {c : σ} {t : Nat},
      findEdge (fun a b => decide (a = b)) c l = some t →
      findEdge eqf c l = some t := by
  intro l
  induction l with
  | nil =>
    intro _ _ c t h
    simp [findEdge] at h
  | cons e rest ih =>
    intro hpw hrefl c t h
    rw [edgesPairwiseNe, Bool.and_eq_true, List.all_eq_true] at hpw
    by_cases hec : e.1 = c
    · have h1 : findEdge (fun a b => decide (a = b)) c (e :: rest) =
          some e.2 := by
        simp [findEdge, hec]
      rw [h1] at h
      have he : eqf e.1 c = true := by
        rw [← hec]
        exact hrefl e (List.mem_cons_self e rest)
      rw [← h]
      simp [findEdge, he]
    · have h1 : findEdge (fun a b => decide (a = b)) c (e :: rest) =
          findEdge (fun a b => decide (a = b)) c rest := by
        simp [findEdge, hec]
      rw [h1] at h
      obtain ⟨e2, he2mem, he2eq, _⟩ := findEdge_mem h
      have he2c : e2.1 = c := by simpa using he2eq
      have hne : eqf e.1 c = false := by
        have h2 := hpw.1 e2 he2mem
        rw [Bool.and_eq_true] at h2
        have h3 : eqf e.1 e2.1 = false := by simpa using h2.1
        rw [← he2c]
        exact h3
      have h4 : findEdge eqf c (e :: rest) = findEdge eqf c rest := by
        simp [findEdge, hne]
      rw [h4]
      exact ih hpw.2 (fun e3 h3 => hrefl e3 (List.mem_cons_of_mem _ h3)) h

/-- One parent step of the keyword reconstruction: the letters of a child
are the letters of the parent followed by the edge letter. -/
theorem parent_letters_child {m : ACMachine σ V} {d : Nat → Nat}
    (ht : treeOk m d = true) {p : Nat} (hp : p ∈ m.ids) {i0 : Nat}
    {e0 : σ × Nat} (hget : (m.states p).goto_array[i0]? = some e0)
    (fuel : Nat) :
    parent_letters m.states (fuel + 1) e0.2 =
      parent_letters m.states fuel p ++ [e0.1] := by
  have hedge := treeOk_edge ht p hp i0 e0 hget
  rw [parent_letters]
  simp only [hedge.2.2.1, hedge.2.2.2.1, hget]

theorem parent_letters_root {m : ACMachine σ V} {d : Nat → Nat}
    (ht : treeOk m d = true) :
    ∀ fuel : Nat, 0 < fuel → parent_letters m.states fuel 0 = [] := by
  intro fuel hf
  obtain ⟨n, hn⟩ : ∃ n, fuel = n + 1 := ⟨fuel - 1, by omega⟩
  subst hn
  rw [parent_letters]
  simp only [treeOk_root_prev ht]

/-- Fuel independence of the keyword reconstruction beyond the depth. -/
theorem parent_letters_stable {m : ACMachine σ V} {d : Nat → Nat}
    (ht : treeOk m d = true) :
    ∀ (n s : Nat), s ∈ m.ids → d s ≤ n → ∀ (fuel1 fuel2 : Nat),
      d s < fuel1 → d s < fuel2 →
      parent_letters m.states fuel1 s = parent_letters m.states fuel2 s := by
  intro n
  induction n with
  | zero =>
    intro s hs hd fuel1 fuel2 h1 h2
    by_cases hs0 : s = 0
    · subst hs0
      rw [parent_letters_root ht fuel1 (by omega),
        parent_letters_root ht fuel2 (by omega)]
    · obtain ⟨p, _, hpmem, e, hget, he2⟩ := treeOk_parent ht s hs hs0
      have := (treeOk_edge ht p hpmem _ e hget).2.2.2.2
      rw [he2] at this
      omega
  | succ n ih =>
    intro s hs hd fuel1 fuel2 h1 h2
    by_cases hs0 : s = 0
    · subst hs0
      rw [parent_letters_root ht fuel1 (by omega),
        parent_letters_root ht fuel2 (by omega)]
    · obtain ⟨p, _, hpmem, e, hget, he2⟩ := treeOk_parent ht s hs hs0
      have hdp : d s = d p + 1 := by
        have := (treeOk_edge ht p hpmem _ e hget).2.2.2.2
        rw [he2] at this
        exact this
      obtain ⟨g1, hg1⟩ : ∃ g1, fuel1 = g1 + 1 := ⟨fuel1 - 1, by omega⟩
      obtain ⟨g2, hg2⟩ : ∃ g2, fuel2 = g2 + 1 := ⟨fuel2 - 1, by omega⟩
      subst hg1
      subst hg2
      have hc1 := parent_letters_child ht hpmem hget g1
      have hc2 := parent_letters_child ht hpmem hget g2
      rw [he2] at hc1 hc2
      rw [hc1, hc2, ih p hpmem (by omega) g1 g2 (by omega) (by omega)]

/-- Walking down the trie along literally-labelled edges: the endpoint is
allocated, its depth adds the keyword length, and the parent-chain
letters extend by exactly the keyword. -/
theorem literal_path_letters [DecidableEq σ] {m : ACMachine σ V}
    {d : Nat → Nat} (ht : treeOk m d = true) :
    ∀ (k : List σ) (sid e : Nat), sid ∈ m.ids →
      literal_path m sid k = some e →
      e ∈ m.ids ∧ d e = d sid + k.length ∧
      parent_letters m.states (d e + 1) e =
        parent_letters m.states (d sid + 1) sid ++ k := by
  intro k
  induction k with
  | nil =>
    intro sid e hsid h
    rw [literal_path] at h
    cases h
    exact ⟨hsid, by simp, by simp⟩
  | cons c rest ih =>
    intro sid e hsid h
    rw [literal_path] at h
    cases hfind : findEdge (fun a b => decide (a = b)) c
        (m.states sid).goto_array with
    | none => rw [hfind] at h; exact Option.noConfusion h
    | some t =>
      simp only [hfind] at h
      obtain ⟨i0, e0, hget, heq0, he02⟩ := findEdge_some_idx hfind
      have he01 : e0.1 = c := by simpa using heq0
      have hedge := treeOk_edge ht sid hsid i0 e0 hget
      have htmem : t ∈ m.ids := he02 ▸ hedge.1
      have hdt : d t = d sid + 1 := by
        rw [← he02]
        exact hedge.2.2.2.2
      obtain ⟨hemem, hde, hlet⟩ := ih t e htmem h
      refine ⟨hemem, by simp only [List.length_cons]; omega, ?_⟩
      have hchild := parent_letters_child ht hsid hget (d sid + 1)
      rw [he02, he01] at hchild
      have hchild2 : parent_letters m.states (d t + 1) t =
          parent_letters m.states (d sid + 1) sid ++ [c] := by
        rw [hdt]
        exact hchild
      rw [hlet, hchild2, List.append_assoc, List.singleton_append]

/-- Feeding a literally-present keyword from any of its path states, on a
clean machine, walks exactly the trie path and returns the endpoint's
output count. -/
theorem feed_literal_path [DecidableEq σ] {m : ACMachine σ V}
    {d : Nat → Nat} (ht : treeOk m d = true) (heq : eqOk m = true)
    (hrec : m.reconstruct = 0) :
    ∀ (k : List σ) (sid e : Nat), sid ∈ m.ids → k ≠ [] →
      literal_path m sid k = some e →
      feed_word m sid k = some (m, e, (m.states e).nb_sequence) := by
  have hpos : 0 < m.size := by
    rw [treeOk_size ht]
    exact List.length_pos_of_mem (treeOk_root_mem ht)
  obtain ⟨n, hn⟩ : ∃ n, m.size = n + 1 := ⟨m.size - 1, by omega⟩
  intro k
  induction k with
  | nil => intro sid e _ hne _; exact absurd rfl hne
  | cons c rest ih =>
    intro sid e hsid _ h
    rw [literal_path] at h
    cases hfind : findEdge (fun a b => decide (a = b)) c
        (m.states sid).goto_array with
    | none => rw [hfind] at h; exact Option.noConfusion h
    | some t =>
      simp only [hfind] at h
      have hfind2 : findEdge m.eq c (m.states sid).goto_array = some t :=
        findEdge_literal_to_eqf (eqOk_pairwise heq sid hsid)
          (eqOk_refl heq sid hsid) hfind
      have htmem : t ∈ m.ids := by
        obtain ⟨i0, e0, hget, _, he02⟩ := findEdge_some_idx hfind
        exact he02 ▸ (treeOk_edge ht sid hsid i0 e0 hget).1
      have hgoto : state_goto m.eq m.states m.size sid c = some t := by
        rw [hn]
        simp only [state_goto, hfind2]
      have hmatch1 : ACM_match m sid c =
          some (m, t, (m.states t).nb_sequence) := by
        rw [ACM_match]
        simp only [hrec, ne_eq, not_true_eq_false, if_false, hgoto]
      cases rest with
      | nil =>
        rw [literal_path] at h
        cases h
        rw [feed_word]
        exact hmatch1
      | cons c2 r2 =>
        rw [feed_word, hmatch1]
        exact ih t e htmem (by simp) h

/-- C3: for a currently registered keyword `k` with value `v` (the trie
path literally labelled by `k` ends at a terminal state carrying `v`),
feeding the symbols of `k` in order from a fresh cursor obtained by the
reset returns on the last symbol the endpoint's match count, which is at
least 1, and calling match_at with index 0 on that cursor reconstructs —
by walking the parent back-links — exactly the symbol sequence `k` and
yields the value `v`. -/
theorem C3_round_trip [DecidableEq σ] (m : ACMachine σ V) (d : Nat → Nat)
    (k : List σ) (e : Nat) (v : V)
    (ht : treeOk m d = true) (ho : outputOk m = true) (heq : eqOk m = true)
    (hrec : m.reconstruct = 0) (hk : k ≠ [])
    (hpath : literal_path m 0 k = some e)
    (hterm : (m.states e).is_matching = true)
    (hv : (m.states e).value = some v) :
    feed_word m (ACM_reset m) k = some (m, e, (m.states e).nb_sequence) ∧
    1 ≤ (m.states e).nb_sequence ∧
    ACM_get_match m e 0 = some (k, (m.states e).rank, some v) := by
  have hroot : (0 : Nat) ∈ m.ids := treeOk_root_mem ht
  have hpos : 0 < m.size := by
    rw [treeOk_size ht]
    exact List.length_pos_of_mem hroot
  have hfeed := feed_literal_path ht heq hrec k 0 e hroot hk hpath
  obtain ⟨hemem, hde, hletters⟩ := literal_path_letters ht k 0 e hroot hpath
  have hid : IdOn m.states (fun x => x ∈ m.ids) := fun x hx =>
    outputOk_identity ho x hx
  have hnb : 1 ≤ (m.states e).nb_sequence := by
    cases hfail : (m.states e).fail_state with
    | none =>
      have := idOn_none hid hemem hfail
      rw [stateBase_of_matching hterm] at this
      omega
    | some f =>
      have := idOn_some hid hemem hfail
      rw [stateBase_of_matching hterm] at this
      omega
  have hk2 : parent_letters m.states m.size e = k := by
    have h0 : parent_letters m.states (d 0 + 1) 0 = [] := by
      rw [treeOk_d0 ht]
      exact parent_letters_root ht 1 (by omega)
    rw [h0, List.nil_append] at hletters
    rw [← hletters]
    exact parent_letters_stable ht (d e) e hemem (le_refl _) m.size
      (d e + 1) (treeOk_dlt ht e hemem) (by omega)
  have hget0 : ACM_get_match m e 0 =
      some (parent_letters m.states m.size e, (m.states e).rank,
        (m.states e).value) := by
    rw [ACM_get_match, if_pos (by omega)]
    obtain ⟨n, hn⟩ : ∃ n, m.size = n + 1 := ⟨m.size - 1, by omega⟩
    have hskip : skip_nonmatching m.states m.size e = some e := by
      rw [hn, skip_nonmatching, if_pos hterm]
    have hwalk : walk_to_index m.states m.size m.size (some e) 0 0 =
        some (some e) := by
      conv_lhs => rw [hn]
      rw [walk_to_index]
      rw [← hn]
      simp only [hskip]
      simp
    rw [hwalk]
  rw [hget0, hk2, hv]
  exact ⟨hfeed, hnb, rfl⟩

/-- Concrete machine with the keyword `ab` carrying the value 7, after a
rebuild (ids: 0 = root, 1 = a, 2 = ab). -/
def exMv : ACMachine Char Nat :=
  state_fail_state_construct
    (machine_goto_update (ACM_create (fun a b => a == b))
      ['a', 'b'] (some 7) true).2.1

/-- Witness for C3 on the concrete machine: feeding `ab` and reading
match 0 reconstructs `ab` with its value 7. -/
theorem C3_witness :
    feed_word exMv (ACM_reset exMv) ['a', 'b'] =
      some (exMv, 2, (exMv.states 2).nb_sequence) ∧
    1 ≤ (exMv.states 2).nb_sequence ∧
    ACM_get_match exMv 2 0 =
      some (['a', 'b'], (exMv.states 2).rank, some 7) :=
  C3_round_trip exMv (fun s => s) ['a', 'b'] 2 7 (by decide) (by decide)
    (by decide) (by decide) (by decide) (by decide) (by decide) (by decide)

end C3Section

section C10Section

theorem append_states_eq_fn :
    ∀ (rest : List σ) (m : ACMachine σ V) (sid : Nat),
      (append_states m sid rest).1.eq = m.eq := by
  intro rest
  induction rest with
  | nil => intro m sid; rfl
  | cons c rest2 ih => intro m sid; rw [append_states]; exact ih _ _

theorem walk_longest_mem {m : ACMachine σ V} {d : Nat → Nat}
    (ht : treeOk m d = true) :
    ∀ (seq : List σ) (sid : Nat), sid ∈ m.ids →
      (walk_longest m.eq m.states sid seq).1 ∈ m.ids := by
  intro seq
  induction seq with
  | nil => intro sid hsid; exact hsid
  | cons c rest ih =>
    intro sid hsid
    rw [walk_longest]
    cases hfind : findEdge m.eq c (m.states sid).goto_array with
    | none => exact hsid
    | some t =>
      obtain ⟨i0, e0, hget, _, he02⟩ := findEdge_some_idx hfind
      exact ih t (he02 ▸ (treeOk_edge ht sid hsid i0 e0 hget).1)

theorem walk_full_mem {m : ACMachine σ V} {d : Nat → Nat}
    (ht : treeOk m d = true) :
    ∀ (seq : List σ) (sid e : Nat), sid ∈ m.ids →
      walk_full m.eq m.states sid seq = some e → e ∈ m.ids := by
  intro seq
  induction seq with
  | nil =>
    intro sid e hsid h
    rw [walk_full] at h
    cases h
    exact hsid
  | cons c rest ih =>
    intro sid e hsid h
    rw [walk_full] at h
    cases hfind : findEdge m.eq c (m.states sid).goto_array with
    | none => rw [hfind] at h; exact Option.noConfusion h
    | some t =>
      simp only [hfind] at h
      obtain ⟨i0, e0, hget, _, he02⟩ := findEdge_some_idx hfind
      exact ih t e (he02 ▸ (treeOk_edge ht sid hsid i0 e0 hget).1) h

/-- Frame effect of the state-appending loop: states other than the walk
endpoint are untouched, the endpoint only gains a trailing edge, all new
ids are at least the old next_id (hence fresh), and the returned endpoint
is either the walk endpoint itself or a fresh id. -/
theorem append_states_frame :
    ∀ (rest : List σ) (m : ACMachine σ V) (sid : Nat), sid < m.next_id →
      (∀ s, s < m.next_id → s ≠ sid →
        (append_states m sid rest).1.states s = m.states s) ∧
      (∃ tail, (append_states m sid rest).1.states sid =
        { m.states sid with
            goto_array := (m.states sid).goto_array ++ tail }) ∧
      (∃ newids, (append_states m sid rest).1.ids = m.ids ++ newids ∧
        ∀ x ∈ newids, m.next_id ≤ x) ∧
      m.next_id ≤ (append_states m sid rest).1.next_id ∧
      ((append_states m sid rest).2 = sid ∨
        m.next_id ≤ (append_states m sid rest).2) := by
  intro rest
  induction rest with
  | nil =>
    intro m sid _
    rw [append_states_nil]
    refine ⟨fun s _ _ => rfl, ⟨[], by simp⟩, ⟨[], by simp, by simp⟩,
      le_refl _, Or.inl rfl⟩
  | cons c rest2 ih =>
    intro m sid hsid
    have hstep : append_states m sid (c :: rest2) =
        append_states (append_step m sid c) m.next_id rest2 := rfl
    rw [hstep]
    have hnid : (append_step m sid c).next_id = m.next_id + 1 := rfl
    have hids : (append_step m sid c).ids = m.ids ++ [m.next_id] := rfl
    have hstO : ∀ s, s ≠ sid → s ≠ m.next_id →
        (append_step m sid c).states s = m.states s := by
      intro s h1 h2
      show updState (updState m.states sid _) m.next_id _ s = m.states s
      rw [updState_other _ _ _ _ h2, updState_other _ _ _ _ h1]
    have hstS : (append_step m sid c).states sid =
        { m.states sid with goto_array :=
            (m.states sid).goto_array ++ [(c, m.next_id)] } := by
      show updState (updState m.states sid _) m.next_id _ sid = _
      rw [updState_other _ _ _ _ (by omega), updState_same]
    obtain ⟨ihA, _, ⟨nids, hnids, hge⟩, ihle, ihend⟩ :=
      ih (append_step m sid c) m.next_id (by rw [hnid]; omega)
    rw [hnid] at ihA ihle hge
    refine ⟨?_, ?_, ?_, ?_, ?_⟩
    · intro s hs hssid
      rw [ihA s (by omega) (by omega)]
      exact hstO s hssid (by omega)
    · refine ⟨[(c, m.next_id)], ?_⟩
      rw [ihA sid (by omega) (by omega)]
      exact hstS
    · refine ⟨m.next_id :: nids, ?_, ?_⟩
      · rw [hnids, hids]
        simp
      · intro x hx
        rcases List.mem_cons.mp hx with h | h
        · omega
        · have := hge x h
          omega
    · omega
    · rcases ihend with h | h
      · right; rw [h]
      · right; omega

/-- Shape of a successful registration: outside the endpoint the states
are those produced by the appending loop, the endpoint only has its
terminal attributes rewritten (its edges and parent links are kept), the
id list and the comparator are those of the appended machine. -/
theorem register_success_shape (m : ACMachine σ V) (seq : List σ)
    (v : Option V) (dt : Bool)
    (hsucc : (machine_goto_update m seq v dt).1 = true) :
    (∀ s, s ≠ register_endpoint m seq →
      (machine_goto_update m seq v dt).2.1.states s =
        (append_states m (walk_longest m.eq m.states 0 seq).1
          (walk_longest m.eq m.states 0 seq).2).1.states s) ∧
    ((machine_goto_update m seq v dt).2.1.states
        (register_endpoint m seq)).goto_array =
      ((append_states m (walk_longest m.eq m.states 0 seq).1
          (walk_longest m.eq m.states 0 seq).2).1.states
        (register_endpoint m seq)).goto_array ∧
    ((machine_goto_update m seq v dt).2.1.states
        (register_endpoint m seq)).previous_state =
      ((append_states m (walk_longest m.eq m.states 0 seq).1
          (walk_longest m.eq m.states 0 seq).2).1.states
        (register_endpoint m seq)).previous_state ∧
    ((machine_goto_update m seq v dt).2.1.states
        (register_endpoint m seq)).previous_i =
      ((append_states m (walk_longest m.eq m.states 0 seq).1
          (walk_longest m.eq m.states 0 seq).2).1.states
        (register_endpoint m seq)).previous_i ∧
    (machine_goto_update m seq v dt).2.1.ids =
      (append_states m (walk_longest m.eq m.states 0 seq).1
        (walk_longest m.eq m.states 0 seq).2).1.ids ∧
    (machine_goto_update m seq v dt).2.1.eq = m.eq := by
  by_cases hlen : seq.length = 0
  · simp [machine_goto_update, hlen] at hsucc
  · by_cases hm : ((append_states m (walk_longest m.eq m.states 0 seq).1
        (walk_longest m.eq m.states 0 seq).2).1.states
        (append_states m (walk_longest m.eq m.states 0 seq).1
          (walk_longest m.eq m.states 0 seq).2).2).is_matching = true
    · exfalso
      simp [machine_goto_update, hlen, hm] at hsucc
    · have hm2 : ((append_states m (walk_longest m.eq m.states 0 seq).1
          (walk_longest m.eq m.states 0 seq).2).1.states
          (append_states m (walk_longest m.eq m.states 0 seq).1
            (walk_longest m.eq m.states 0 seq).2).2).is_matching = false := by
        simpa using hm
      refine ⟨?_, ?_, ?_, ?_, ?_, ?_⟩
      · intro s hs
        have hs2 : s ≠ (append_states m (walk_longest m.eq m.states 0 seq).1
            (walk_longest m.eq m.states 0 seq).2).2 := hs
        simp only [machine_goto_update, hlen, if_false, hm2,
          Bool.false_eq_true]
        exact updState_other _ _ _ s hs2
      · simp only [machine_goto_update, hlen, if_false, hm2,
          Bool.false_eq_true, register_endpoint, updState_same]
      · simp only [machine_goto_update, hlen, if_false, hm2,
          Bool.false_eq_true, register_endpoint, updState_same]
      · simp only [machine_goto_update, hlen, if_false, hm2,
          Bool.false_eq_true, register_endpoint, updState_same]
      · simp only [machine_goto_update, hlen, if_false, hm2,
          Bool.false_eq_true]
      · simp only [machine_goto_update, hlen, if_false, hm2,
          Bool.false_eq_true]
        exact append_states_eq_fn _ _ _

/-- A walk over the old edges still succeeds identically after edges have
only been appended at the ends of edge lists. -/
theorem walk_full_preserved {m m2 : ACMachine σ V} {d : Nat → Nat}
    (ht : treeOk m d = true) (heq2 : m2.eq = m.eq)
    (hframe : ∀ s ∈ m.ids, ∃ tail,
      (m2.states s).goto_array = (m.states s).goto_array ++ tail) :
    ∀ (k2 : List σ) (sid e2 : Nat), sid ∈ m.ids →
      walk_full m.eq m.states sid k2 = some e2 →
      walk_full m2.eq m2.states sid k2 = some e2 := by
  intro k2
  induction k2 with
  | nil =>
    intro sid e2 _ h
    rw [walk_full] at h
    cases h
    rw [walk_full]
  | cons c rest ih =>
    intro sid e2 hsid h
    rw [walk_full] at h
    cases hfind : findEdge m.eq c (m.states sid).goto_array with
    | none => rw [hfind] at h; exact Option.noConfusion h
    | some t =>
      simp only [hfind] at h
      obtain ⟨tail, htail⟩ := hframe sid hsid
      have hfind2 : findEdge m2.eq c (m2.states sid).goto_array = some t := by
        rw [heq2, htail]
        exact findEdge_append_some hfind
      rw [walk_full]
      simp only [hfind2]
      obtain ⟨i0, e0, hget, _, he02⟩ := findEdge_some_idx hfind
      exact ih t e2 (he02 ▸ (treeOk_edge ht sid hsid i0 e0 hget).1) h

/-- C10: a successful registration modifies only the endpoint state of
the keyword and appends fresh states and edges along the previously
absent suffix; every pre-existing state keeps its edge symbols (its edge
list is only extended at the end), its parent links, and — endpoint
aside — its terminality, rank and value; the ids added are all fresh;
and every previously registered keyword remains registered with its rank
and value unchanged. -/
theorem C10_register_frame (m : ACMachine σ V) (d : Nat → Nat)
    (seq : List σ) (v : Option V) (dt : Bool)
    (ht : treeOk m d = true)
    (hsucc : (machine_goto_update m seq v dt).1 = true) :
    (∀ s ∈ m.ids, ∃ tail,
      ((machine_goto_update m seq v dt).2.1.states s).goto_array =
        (m.states s).goto_array ++ tail ∧
      ((machine_goto_update m seq v dt).2.1.states s).previous_state =
        (m.states s).previous_state ∧
      ((machine_goto_update m seq v dt).2.1.states s).previous_i =
        (m.states s).previous_i) ∧
    (∀ s ∈ m.ids, s ≠ register_endpoint m seq →
      ((machine_goto_update m seq v dt).2.1.states s).is_matching =
        (m.states s).is_matching ∧
      ((machine_goto_update m seq v dt).2.1.states s).rank =
        (m.states s).rank ∧
      ((machine_goto_update m seq v dt).2.1.states s).value =
        (m.states s).value) ∧
    (∃ newids, (machine_goto_update m seq v dt).2.1.ids =
      m.ids ++ newids ∧ ∀ x ∈ newids, x ∉ m.ids) ∧
    (∀ (k2 : List σ) (e2 : Nat), get_last_state m k2 = some e2 →
      get_last_state (machine_goto_update m seq v dt).2.1 k2 = some e2 ∧
      ((machine_goto_update m seq v dt).2.1.states e2).rank =
        (m.states e2).rank ∧
      ((machine_goto_update m seq v dt).2.1.states e2).value =
        (m.states e2).value) := by
  obtain ⟨hshapeA, hshapeG, hshapeP, hshapeI, hshapeIds, hshapeEq⟩ :=
    register_success_shape m seq v dt hsucc
  have hws : (walk_longest m.eq m.states 0 seq).1 ∈ m.ids :=
    walk_longest_mem ht seq 0 (treeOk_root_mem ht)
  have hwslt : (walk_longest m.eq m.states 0 seq).1 < m.next_id :=
    treeOk_next_id ht _ hws
  obtain ⟨hframeA, ⟨tail0, htail0⟩, ⟨nids, hnids, hnidsge⟩, _, hend⟩ :=
    append_states_frame (walk_longest m.eq m.states 0 seq).2 m
      (walk_longest m.eq m.states 0 seq).1 hwslt
  have hAstate : ∀ s ∈ m.ids, ∃ tail,
      (append_states m (walk_longest m.eq m.states 0 seq).1
        (walk_longest m.eq m.states 0 seq).2).1.states s =
        { m.states s with goto_array := (m.states s).goto_array ++ tail } := by
    intro s hs
    by_cases hsw : s = (walk_longest m.eq m.states 0 seq).1
    · subst hsw
      exact ⟨tail0, htail0⟩
    · refine ⟨[], ?_⟩
      rw [hframeA s (treeOk_next_id ht s hs) hsw]
      simp
  have hMain : ∀ s ∈ m.ids, ∃ tail,
      ((machine_goto_update m seq v dt).2.1.states s).goto_array =
        (m.states s).goto_array ++ tail ∧
      ((machine_goto_update m seq v dt).2.1.states s).previous_state =
        (m.states s).previous_state ∧
      ((machine_goto_update m seq v dt).2.1.states s).previous_i =
        (m.states s).previous_i := by
    intro s hs
    obtain ⟨tail, htail⟩ := hAstate s hs
    by_cases hse : s = register_endpoint m seq
    · refine ⟨tail, ?_, ?_, ?_⟩
      · rw [← hse] at hshapeG
        rw [hshapeG, htail]
      · rw [← hse] at hshapeP
        rw [hshapeP, htail]
      · rw [← hse] at hshapeI
        rw [hshapeI, htail]
    · rw [hshapeA s hse, htail]
      exact ⟨tail, rfl, rfl, rfl⟩
  have hOther : ∀ s ∈ m.ids, s ≠ register_endpoint m seq →
      ((machine_goto_update m seq v dt).2.1.states s).is_matching =
        (m.states s).is_matching ∧
      ((machine_goto_update m seq v dt).2.1.states s).rank =
        (m.states s).rank ∧
      ((machine_goto_update m seq v dt).2.1.states s).value =
        (m.states s).value := by
    intro s hs hse
    obtain ⟨tail, htail⟩ := hAstate s hs
    rw [hshapeA s hse, htail]
    exact ⟨rfl, rfl, rfl⟩
  have hIds : ∃ newids, (machine_goto_update m seq v dt).2.1.ids =
      m.ids ++ newids ∧ ∀ x ∈ newids, x ∉ m.ids := by
    refine ⟨nids, by rw [hshapeIds, hnids], ?_⟩
    intro x hx hxmem
    have h1 := hnidsge x hx
    have h2 := treeOk_next_id ht x hxmem
    omega
  refine ⟨hMain, hOther, hIds, ?_⟩
  intro k2 e2 hget
  rw [get_last_state] at hget
  by_cases hk2 : k2.length = 0
  · rw [if_pos hk2] at hget
    exact Option.noConfusion hget
  · rw [if_neg hk2] at hget
    cases hwalkf : walk_full m.eq m.states 0 k2 with
    | none => rw [hwalkf] at hget; exact Option.noConfusion hget
    | some e3 =>
      simp only [hwalkf] at hget
      by_cases hmatch : (m.states e3).is_matching = true
      · rw [if_pos hmatch] at hget
        cases hget
        have he2mem : e2 ∈ m.ids :=
          walk_full_mem ht k2 0 e2 (treeOk_root_mem ht) hwalkf
        have he2ne : e2 ≠ register_endpoint m seq := by
          intro hcontra
          rcases hend with hcase | hcase
          · rw [register_endpoint] at hcontra
            rw [hcontra, hcase] at hmatch
            by_cases hlen : seq.length = 0
            · simp [machine_goto_update, hlen] at hsucc
            · by_cases hmat2 : ((append_states m
                  (walk_longest m.eq m.states 0 seq).1
                  (walk_longest m.eq m.states 0 seq).2).1.states
                  (append_states m (walk_longest m.eq m.states 0 seq).1
                    (walk_longest m.eq m.states 0 seq).2).2).is_matching =
                    true
              · simp [machine_goto_update, hlen, hmat2] at hsucc
              · rw [hcase] at hmat2
                by_cases hsw : (walk_longest m.eq m.states 0 seq).1 ∈ m.ids
                · obtain ⟨tail, htail⟩ := hAstate _ hsw
                  rw [htail] at hmat2
                  exact hmat2 hmatch
                · exact hsw hws
          · have h2 := treeOk_next_id ht e2 he2mem
            rw [register_endpoint] at hcontra
            omega
        obtain ⟨_, hrk, hvl⟩ := hOther e2 he2mem he2ne
        have hwalk2 : walk_full (machine_goto_update m seq v dt).2.1.eq
            (machine_goto_update m seq v dt).2.1.states 0 k2 = some e2 := by
          refine walk_full_preserved ht hshapeEq ?_ k2 0 e2
            (treeOk_root_mem ht) hwalkf
          intro s hs
          obtain ⟨tail, htail, _, _⟩ := hMain s hs
          exact ⟨tail, htail⟩
        have hmatch2 : ((machine_goto_update m seq v dt).2.1.states
            e2).is_matching = true := by
          obtain ⟨him, _, _⟩ := hOther e2 he2mem he2ne
          rw [him]
          exact hmatch
        refine ⟨?_, hrk, hvl⟩
        rw [get_last_state, if_neg hk2]
        simp only [hwalk2]
        rw [if_pos hmatch2]
      · rw [if_neg hmatch] at hget
        exact Option.noConfusion hget

/-- Witness for C10 on the concrete machine with keywords `he`, `hex`,
`she`: registering `so` only adds fresh ids. -/
theorem C10_witness :
    ∃ newids, (machine_goto_update exM0 ['s', 'o'] none false).2.1.ids =
      exM0.ids ++ newids ∧ ∀ x ∈ newids, x ∉ exM0.ids :=
  (C10_register_frame exM0 exD ['s', 'o'] none false (by decide)
    (by decide)).2.2.1

end C10Section

end AhoCorasick
